import Mathlib

/-!
Shallow embedding of `src/non_lazy_brain.py` (class `NonLazyBrain`) from the
assemblies repository.  Python dictionaries are modelled as insertion-ordered
association lists keyed by `String`; numpy float matrices as `List (List ℚ)`
(rows = source neurons, columns = target neurons); the numpy RNG as a stream
`u : Nat → ℚ` of uniform draws in `[0,1)` together with a cursor, so that
`np.random.binomial(1, p)` is the inverse-CDF draw `if u i < p then 1 else 0`.
Parts of the repository that are imported by `non_lazy_brain.py` but whose
files are not present (`brain.py`: the `Brain` base class with its dicts and
connectome getters, the `Area`/`OutputArea`/`Stimulus` constructors, and the
`BrainLearningMode` enum) are modelled from the spec; each such definition
says so in its doc comment.
-/

namespace Assemblies

set_option allowUnsafeReducibility true
attribute [semireducible] Rat.add Rat.mul Rat.sub Rat.inv Rat.ofScientific

/-- Modelled from the spec: the Learning-Mode Controller enum
`BrainLearningMode` lives in `learning/learning_stages/learning_stages.py`,
which is not under `src/`; the spec gives its three states
{TRAINING, TESTING, (implicit default/inference)}. -/
inductive BrainLearningMode where
  | DEFAULT
  | TRAINING
  | TESTING
deriving DecidableEq

/-- A weight matrix: list of rows, one row per source neuron. -/
abbrev Mat : Type := List (List ℚ)

/-- A vector of per-neuron values. -/
abbrev Vec : Type := List ℚ

/-- First value bound to `key` in an association list (Python `d[k]` read). -/
def lookup (key : String) : List (String × α) → Option α
  | [] => none
  | p :: rest => if p.1 = key then some p.2 else lookup key rest

/-- Read with a default, for total modelling of dictionary access. -/
def lookupD (key : String) (l : List (String × α)) (d : α) : α :=
  (lookup key l).getD d

/-- Replace the value bound to an existing key, keeping insertion order. -/
def setKey (key : String) (v : α) : List (String × α) → List (String × α)
  | [] => []
  | p :: rest => if p.1 = key then (key, v) :: rest else p :: setKey key v rest

/-- Python `d[k] = v`: overwrite an existing binding in place, else append. -/
def insertKey (key : String) (v : α) (l : List (String × α)) :
    List (String × α) :=
  if (lookup key l).isSome then setKey key v l else l ++ [(key, v)]

/-- Nested-dict write `d[k1][k2] = v` (creating the inner dict if absent). -/
def insertKey2 (k1 k2 : String) (v : Mat)
    (d : List (String × List (String × Mat))) :
    List (String × List (String × Mat)) :=
  insertKey k1 (insertKey k2 v (lookupD k1 d [])) d

/-- Entry `m[i][j]` of a matrix, 0 outside the stored shape. -/
def Mat.entry (m : Mat) (i j : Nat) : ℚ :=
  (m.getD i []).getD j 0

/-- In-place write of entry `m[i][j]` (no-op outside the stored shape, which
never happens on the shapes the code allocates). -/
def Mat.setEntry (m : Mat) (i j : Nat) (v : ℚ) : Mat :=
  m.set i ((m.getD i []).set j v)

/-- All rows of the matrix have the given width. -/
def Mat.rowsLen (m : Mat) (width : Nat) : Prop :=
  ∀ r ∈ m, r.length = width

instance (m : Mat) (width : Nat) : Decidable (m.rowsLen width) :=
  List.decidableBAll _ m

/-- Pointwise addition of numpy vectors (the code only adds equal lengths). -/
def addVec (v w : Vec) : Vec := List.zipWith (· + ·) v w

/-- Column sums `np.dot(np.ones(k), m)` of a matrix whose rows have the given
width: the sum of all rows. -/
def colSums (m : Mat) (width : Nat) : Vec :=
  m.foldl addVec (List.replicate width 0)

/-- The `heapq.nlargest(k, range(len(inputs)), inputs.__getitem__)` order on
indices: larger input first, equal inputs by lower index first. -/
def argRel (inputs : Vec) (i j : Nat) : Prop :=
  inputs.getD j 0 < inputs.getD i 0 ∨
    (inputs.getD i 0 = inputs.getD j 0 ∧ i ≤ j)

instance (inputs : Vec) : DecidableRel (argRel inputs) := fun i j =>
  inferInstanceAs (Decidable (_ ∨ _))

instance (inputs : Vec) : IsTotal Nat (argRel inputs) where
  total i j := by
    rcases lt_trichotomy (inputs.getD i 0) (inputs.getD j 0) with h | h | h
    · exact Or.inr (Or.inl h)
    · rcases Nat.le_total i j with hij | hij
      · exact Or.inl (Or.inr ⟨h, hij⟩)
      · exact Or.inr (Or.inr ⟨h.symm, hij⟩)
    · exact Or.inl (Or.inl h)

instance (inputs : Vec) : IsTrans Nat (argRel inputs) where
  trans i j k hij hjk := by
    rcases hij with h1 | ⟨e1, l1⟩ <;> rcases hjk with h2 | ⟨e2, l2⟩
    · exact Or.inl (h2.trans h1)
    · exact Or.inl (e2 ▸ h1)
    · exact Or.inl (e1 ▸ h2)
    · exact Or.inr ⟨e1.trans e2, l1.trans l2⟩

/-- `heapq.nlargest(k, range(len(inputs)), inputs.__getitem__)` — equivalent
to `sorted(range(len(inputs)), key=inputs.__getitem__, reverse=True)[:k]`
with Python's stable sort, i.e. the unique ordering of indices by input
descending, ties by index ascending, truncated to `k`. -/
def nlargest (k : Nat) (inputs : Vec) : List Nat :=
  ((List.range inputs.length).insertionSort (argRel inputs)).take k

/-- `Stimulus` record: `k` always-firing neurons ("Modelled from the spec"
as far as the constructor goes: `brain.py` is not under `src/`; the spec
fixes `k` as its only attribute). -/
structure Stimulus where
  k : Nat
deriving DecidableEq

/-- Area record.  Modelled from the spec where `brain.py` is missing: the
spec lists exactly these attributes for `Area`, with `OutputArea` a tagged
specialization carrying `desired_output`; we follow the spec's design note
and use one record with an `is_output` tag.  The scratch fields
`_new_winners` / `_new_support_size` are named without the underscore. -/
structure Area where
  name : String
  n : Nat
  k : Nat
  beta : ℚ
  stimulus_beta : List (String × ℚ)
  area_beta : List (String × ℚ)
  support : List Bool
  support_size : Nat
  winners : List Nat
  new_winners : List Nat
  new_support_size : Nat
  is_output : Bool
  desired_output : List Nat
deriving DecidableEq

instance : Inhabited Area :=
  ⟨⟨"", 0, 0, 0, [], [], [], 0, [], [], 0, false, []⟩⟩

/-- The Brain aggregate: Registry dicts and the four connectome families
(`brain.py` is not under `src/`; the field list is modelled from the spec
and from every `self.…` access in `non_lazy_brain.py`). -/
structure Brain where
  p : ℚ
  stimuli : List (String × Stimulus)
  areas : List (String × Area)
  output_areas : List (String × Area)
  connectomes : List (String × List (String × Mat))
  stimuli_connectomes : List (String × List (String × Mat))
  output_connectomes : List (String × List (String × Mat))
  output_stimuli_connectomes : List (String × List (String × Mat))
  learning_mode : BrainLearningMode
deriving DecidableEq

/-- Modelled from the spec: an empty Brain with sparsity `p` (the `Brain`
constructor is in the missing `brain.py`). -/
def Brain.empty (p : ℚ) (mode : BrainLearningMode) : Brain :=
  ⟨p, [], [], [], [], [], [], [], mode⟩

/-- Modelled from the spec: `Brain.get_area_connectomes` lives in the missing
`brain.py`; the spec's Connectome Store keeps area→area and area→output-area
matrices in distinct families, so the getter dispatches on whether the target
is an output area. -/
def Brain.get_area_connectomes (b : Brain) (fromName toName : String) : Mat :=
  if (lookup toName b.output_areas).isSome then
    lookupD toName (lookupD fromName b.output_connectomes []) []
  else
    lookupD toName (lookupD fromName b.connectomes []) []

/-- Modelled from the spec: `Brain.get_stimulus_connectomes` lives in the
missing `brain.py`; dispatches between the stimulus→area and
stimulus→output-area families on the kind of the target. -/
def Brain.get_stimulus_connectomes (b : Brain) (stim toName : String) : Mat :=
  if (lookup toName b.output_areas).isSome then
    lookupD toName (lookupD stim b.output_stimuli_connectomes []) []
  else
    lookupD toName (lookupD stim b.stimuli_connectomes []) []

/-- Write back an area→target matrix, into the family the getter reads. -/
def Brain.set_area_connectomes (b : Brain) (fromName toName : String)
    (m : Mat) : Brain :=
  if (lookup toName b.output_areas).isSome then
    { b with output_connectomes := insertKey2 fromName toName m b.output_connectomes }
  else
    { b with connectomes := insertKey2 fromName toName m b.connectomes }

/-- Write back a stimulus→target matrix, into the family the getter reads. -/
def Brain.set_stimulus_connectomes (b : Brain) (stim toName : String)
    (m : Mat) : Brain :=
  if (lookup toName b.output_areas).isSome then
    { b with output_stimuli_connectomes := insertKey2 stim toName m b.output_stimuli_connectomes }
  else
    { b with stimuli_connectomes := insertKey2 stim toName m b.stimuli_connectomes }

/-- The target Area object handed to `project_into` (the Python caller passes
`self.areas[name]` or `self.output_areas[name]`; output areas shadow). -/
def Brain.get_area (b : Brain) (name : String) : Area :=
  match lookup name b.output_areas with
  | some a => a
  | none => lookupD name b.areas default

/-- Python mutates the Area object in place; here the mutated record is
written back into the dict it came from. -/
def Brain.set_area (b : Brain) (name : String) (a : Area) : Brain :=
  if (lookup name b.output_areas).isSome then
    { b with output_areas := setKey name a b.output_areas }
  else
    { b with areas := setKey name a b.areas }

/-- `project_into_calculate_inputs` (src/non_lazy_brain.py lines 116-142):
start from `np.zeros(area.n)`; for each source area add the connectome row of
each of its current winners; then add, for each stimulus, the column sums of
its connectome into the target. -/
def Brain.project_into_calculate_inputs (b : Brain) (area : Area)
    (from_stimuli from_areas : List String) : Vec :=
  let v0 : Vec := List.replicate area.n 0
  let v1 := from_areas.foldl (fun acc from_area =>
    let area_connectomes := b.get_area_connectomes from_area area.name
    (lookupD from_area b.areas default).winners.foldl
      (fun acc winner => addVec acc (area_connectomes.getD winner [])) acc) v0
  from_stimuli.foldl (fun acc stim =>
    addVec acc (colSums (b.get_stimulus_connectomes stim area.name) area.n)) v1

/-- The winner-selection branch of `project_into_calculate_winners`
(src/non_lazy_brain.py lines 150-153): `heapq.nlargest` over the inputs
unless the mode is TRAINING and the target is an output area (the
`isinstance(area, OutputArea)` test), in which case `desired_output`. -/
def winner_branch (mode : BrainLearningMode) (area : Area) (inputs : Vec) :
    List Nat :=
  if mode ≠ BrainLearningMode.TRAINING ∨ area.is_output = false then
    nlargest area.k inputs
  else
    area.desired_output

/-- The support-bookkeeping loop of `project_into_calculate_winners`
(src/non_lazy_brain.py lines 155-158): walk the new winners, increment the
first-winner counter for each previously-unset support bit, and set every
winner's bit. -/
def support_fold (nw : List Nat) (s : List Bool) (c : Nat) :
    List Bool × Nat :=
  nw.foldl
    (fun sn winner =>
      (sn.1.set winner true,
        if sn.1.getD winner false = false then sn.2 + 1 else sn.2))
    (s, c)

/-- `project_into_calculate_winners` (src/non_lazy_brain.py lines 144-161):
pick the `k` neurons of maximal input (or clamp to `desired_output` when
TRAINING into an output area), then walk the new winners counting and setting
previously-unset support bits; record the scratch fields on the area.
Returns the updated area record together with `num_first_winners`. -/
def Brain.project_into_calculate_winners (mode : BrainLearningMode)
    (area : Area) (inputs : Vec) : Area × Nat :=
  let nw : List Nat := winner_branch mode area inputs
  let sn : List Bool × Nat := support_fold nw area.support 0
  ({ area with
      new_winners := nw
      support := sn.1
      new_support_size := sn.2 + area.support_size }, sn.2)

/-- `project_into_update_connectomes` (src/non_lazy_brain.py lines 163-182):
for each stimulus source, multiply every entry `[j][i]` with `i` a new winner
of the target and `j` any of the stimulus's `k` neurons by `(1 + beta)`; for
each area source, multiply every entry `[j][i]` with `i` a new winner of the
target and `j` in the source area's `_new_winners` by `(1 + beta)`. -/
def Brain.project_into_update_connectomes (b : Brain) (area : Area)
    (from_stimuli from_areas : List String) : Brain :=
  let b1 := from_stimuli.foldl (fun b stim =>
    let beta := lookupD stim area.stimulus_beta 0
    area.new_winners.foldl (fun b i =>
      (List.range (lookupD stim b.stimuli ⟨0⟩).k).foldl (fun b j =>
        b.set_stimulus_connectomes stim area.name
          ((b.get_stimulus_connectomes stim area.name).setEntry j i
            ((b.get_stimulus_connectomes stim area.name).entry j i * (1 + beta)))) b) b) b
  from_areas.foldl (fun b from_area =>
    let from_area_winners := (lookupD from_area b.areas default).new_winners
    let beta := lookupD from_area area.area_beta 0
    area.new_winners.foldl (fun b i =>
      from_area_winners.foldl (fun b j =>
        b.set_area_connectomes from_area area.name
          ((b.get_area_connectomes from_area area.name).setEntry j i
            ((b.get_area_connectomes from_area area.name).entry j i * (1 + beta)))) b) b) b1

/-- `project_into` (src/non_lazy_brain.py lines 184-195): aggregate inputs,
select winners and update support, then update connectomes unless the
learning mode is TESTING; return `num_first_winners`.  The Python call
mutates the Area object named `areaName`; here the updated record is written
back before the connectome update reads `self.areas[from_area]`, which keeps
the aliasing behaviour when the target is also a source. -/
def Brain.project_into (b : Brain) (areaName : String)
    (from_stimuli from_areas : List String) : Brain × Nat :=
  let area := b.get_area areaName
  let inputs := b.project_into_calculate_inputs area from_stimuli from_areas
  let an := Brain.project_into_calculate_winners b.learning_mode area inputs
  let b1 := b.set_area areaName an.1
  let b2 :=
    if b.learning_mode ≠ BrainLearningMode.TESTING then
      b1.project_into_update_connectomes an.1 from_stimuli from_areas
    else b1
  (b2, an.2)

/-- Modelled from the spec: `Brain.project` (in the missing `brain.py`)
commits the scratch fields of each updated population after its projection
round — "Record the new-winner set as `target.winners`" and "Update
`target`'s support-size by this counter". -/
def commit_area (a : Area) : Area :=
  { a with winners := a.new_winners, support_size := a.new_support_size }

/-- One Bernoulli(p) row of width `cols`, drawn from the uniform stream `u`
starting at cursor `c`. -/
def binomialRow (u : Nat → ℚ) (c : Nat) (p : ℚ) (cols : Nat) : Vec :=
  (List.range cols).map (fun j => if u (c + j) < p then 1 else 0)

/-- `np.random.binomial(1, p, (rows, cols)).astype('f')`: a Bernoulli(p)
matrix drawn row-major from the stream, together with the advanced cursor. -/
def binomialMat (u : Nat → ℚ) (c : Nat) (p : ℚ) (rows cols : Nat) :
    Mat × Nat :=
  ((List.range rows).map (fun i => binomialRow u (c + i * cols) p cols),
    c + rows * cols)

/-- `np.zeros((rows, cols))`. -/
def zerosMat (rows cols : Nat) : Mat :=
  List.replicate rows (List.replicate cols 0)

/-- `np.ones((rows, cols))`. -/
def onesMat (rows cols : Nat) : Mat :=
  List.replicate rows (List.replicate cols 1)

/-- Modelled from the spec: a fresh `Area(name, n, k, beta)` record (the
constructor is in the missing `brain.py`): support bit-vector of length `n`
all unset, `support_size` 0, no winners yet. -/
def mkArea (name : String) (n k : Nat) (beta : ℚ) : Area :=
  ⟨name, n, k, beta, [], [], List.replicate n false, 0, [], [], 0, false, []⟩

/-- Modelled from the spec: a fresh `OutputArea(name)` record (the class is
in the missing `brain.py`; its `n`, `k` are class-level constants there, so
they are taken as parameters here), tagged `is_output` and carrying
`desired_output`. -/
def mkOutputArea (name : String) (n k : Nat) : Area :=
  ⟨name, n, k, 0, [], [], List.replicate n false, 0, [], [], 0, true, []⟩

/-- One iteration of the area loop of `conectomes_init_stimulus`
(src/non_lazy_brain.py lines 105-107): draw the Bernoulli stimulus→area
matrix into the accumulating dict and set the area's `stimulus_beta` to the
area's own beta. -/
def initStim_area_step (stimulus : Stimulus) (name : String) (u : Nat → ℚ)
    (st : Brain × List (String × Mat) × Nat) (p : String × Area) :
    Brain × List (String × Mat) × Nat :=
  let mt := binomialMat u st.2.2 st.1.p stimulus.k p.2.n
  let b' := { st.1 with
    areas := insertKey p.1
      { p.2 with stimulus_beta := insertKey name p.2.beta p.2.stimulus_beta }
      st.1.areas }
  (b', insertKey p.1 mt.1 st.2.1, mt.2)

/-- One iteration of the output-area loop of `conectomes_init_stimulus`
(src/non_lazy_brain.py lines 111-113): Bernoulli stimulus→output matrix and
the output area's own beta as `stimulus_beta`. -/
def initStim_out_step (stimulus : Stimulus) (name : String) (u : Nat → ℚ)
    (st : Brain × List (String × Mat) × Nat) (p : String × Area) :
    Brain × List (String × Mat) × Nat :=
  let mt := binomialMat u st.2.2 st.1.p stimulus.k p.2.n
  let b' := { st.1 with
    output_areas := insertKey p.1
      { p.2 with stimulus_beta := insertKey name p.2.beta p.2.stimulus_beta }
      st.1.output_areas }
  (b', insertKey p.1 mt.1 st.2.1, mt.2)

/-- `conectomes_init_stimulus` (src/non_lazy_brain.py lines 100-114): for
every existing area draw a Bernoulli(p) stimulus→area matrix and record the
area's beta as its `stimulus_beta`; then the same for every output area into
the `output_stimuli_connectomes` family (note: Bernoulli there too). -/
def Brain.conectomes_init_stimulus (b : Brain) (stimulus : Stimulus)
    (name : String) (u : Nat → ℚ) (c : Nat) : Brain × Nat :=
  let step1 := b.areas.foldl (initStim_area_step stimulus name u) (b, [], c)
  let b1 := { step1.1 with
    stimuli_connectomes := insertKey name step1.2.1 step1.1.stimuli_connectomes }
  let step2 := b1.output_areas.foldl (initStim_out_step stimulus name u)
    (b1, [], step1.2.2)
  ({ step2.1 with
    output_stimuli_connectomes :=
      insertKey name step2.2.1 step2.1.output_stimuli_connectomes }, step2.2.2)

/-- `add_stimulus` (src/non_lazy_brain.py lines 16-29): register the stimulus
(no naming check) and initialize its connectomes. -/
def Brain.add_stimulus (b : Brain) (name : String) (k : Nat) (u : Nat → ℚ)
    (c : Nat) : Brain × Nat :=
  let b1 := { b with stimuli := insertKey name ⟨k⟩ b.stimuli }
  b1.conectomes_init_stimulus ⟨k⟩ name u c

/-- `conectomes_init_output_area` (src/non_lazy_brain.py lines 86-98): for
every existing stimulus store an all-zero stimulus→output matrix — written
into `stimuli_connectomes` (the regular family), as the code does — and set
the output area's `stimulus_beta`; for every existing area store an all-one
area→output matrix in `output_connectomes` and set the output area's
`area_beta`; every beta recorded is the output area's own beta.
One iteration of its stimulus loop (src/non_lazy_brain.py lines 91-94). -/
def initOut_stim_step (area : Area) (beta : ℚ) (b : Brain)
    (p : String × List (String × Mat)) : Brain :=
  let stimulus := lookupD p.1 b.stimuli ⟨0⟩
  let b' := { b with
    stimuli_connectomes :=
      insertKey2 p.1 area.name (zerosMat stimulus.k area.n)
        b.stimuli_connectomes }
  { b' with
    output_areas := setKey area.name
      (let oa := lookupD area.name b'.output_areas default
       { oa with stimulus_beta := insertKey p.1 beta oa.stimulus_beta })
      b'.output_areas }

/-- One iteration of the area loop of `conectomes_init_output_area`
(src/non_lazy_brain.py lines 96-98). -/
def initOut_area_step (area : Area) (beta : ℚ) (b : Brain)
    (p : String × Area) : Brain :=
  let b' := { b with
    output_connectomes :=
      insertKey2 p.1 area.name (onesMat p.2.n area.n) b.output_connectomes }
  { b' with
    output_areas := setKey area.name
      (let oa := lookupD area.name b'.output_areas default
       { oa with area_beta := insertKey p.1 beta oa.area_beta })
      b'.output_areas }

/-- The two loops of `conectomes_init_output_area`
(src/non_lazy_brain.py lines 86-98). -/
def Brain.conectomes_init_output_area (b : Brain) (area : Area) (beta : ℚ) :
    Brain :=
  let b1 := b.stimuli_connectomes.foldl (initOut_stim_step area beta) b
  b1.areas.foldl (initOut_area_step area beta) b1

/-- `add_output_area` (src/non_lazy_brain.py lines 31-35): assert the name is
not a regular area's, register the output area, initialize its connectomes
with `OutputArea.beta` (a class constant in the missing `brain.py`, taken as
the parameter `beta`).  A failed assert is modelled as `none`. -/
def Brain.add_output_area (b : Brain) (name : String) (n k : Nat) (beta : ℚ) :
    Option Brain :=
  if (lookup name b.areas).isSome then none
  else
    let oa := mkOutputArea name n k
    let b1 := { b with output_areas := insertKey name oa b.output_areas }
    some (b1.conectomes_init_output_area oa beta)

/-- One iteration of the stimulus loop of `conectomes_init_area`
(src/non_lazy_brain.py lines 65-68). -/
def initArea_stim_step (area : Area) (beta : ℚ) (u : Nat → ℚ)
    (st : Brain × Nat) (p : String × List (String × Mat)) : Brain × Nat :=
  let stimulus := lookupD p.1 st.1.stimuli ⟨0⟩
  let mt := binomialMat u st.2 st.1.p stimulus.k area.n
  let b' := { st.1 with
    stimuli_connectomes :=
      insertKey2 p.1 area.name mt.1 st.1.stimuli_connectomes }
  ({ b' with
    areas := setKey area.name
      (let a := lookupD area.name b'.areas default
       { a with stimulus_beta := insertKey p.1 beta a.stimulus_beta })
      b'.areas }, mt.2)

/-- One iteration of the area loop of `conectomes_init_area`
(src/non_lazy_brain.py lines 71-77), accumulating the new area's outgoing
row dict. -/
def initArea_area_step (area : Area) (beta : ℚ) (u : Nat → ℚ)
    (st : Brain × List (String × Mat) × Nat) (p : String × Area) :
    Brain × List (String × Mat) × Nat :=
  let other := lookupD p.1 st.1.areas default
  let mt := binomialMat u st.2.2 st.1.p area.n other.n
  let nc := insertKey p.1 mt.1 st.2.1
  let st1 :=
    if p.1 ≠ area.name then
      let mt2 := binomialMat u mt.2 st.1.p other.n area.n
      ({ st.1 with
        connectomes := insertKey2 p.1 area.name mt2.1 st.1.connectomes },
        mt2.2)
    else (st.1, mt.2)
  let b2 := { st1.1 with
    areas := setKey p.1
      (let oa := lookupD p.1 st1.1.areas default
       { oa with area_beta := insertKey area.name oa.beta oa.area_beta })
      st1.1.areas }
  let b3 := { b2 with
    areas := setKey area.name
      (let a := lookupD area.name b2.areas default
       { a with area_beta := insertKey p.1 beta a.area_beta })
      b2.areas }
  (b3, nc, st1.2)

/-- One iteration of the output-area loop of `conectomes_init_area`
(src/non_lazy_brain.py lines 82-84): a Bernoulli(p) area→output matrix, and
the output area's own beta recorded as its `area_beta`. -/
def initArea_out_step (area : Area) (u : Nat → ℚ) (st : Brain × Nat)
    (p : String × Area) : Brain × Nat :=
  let mt := binomialMat u st.2 st.1.p area.n p.2.n
  let b' := { st.1 with
    output_connectomes :=
      insertKey2 area.name p.1 mt.1 st.1.output_connectomes }
  ({ b' with
    output_areas := setKey p.1
      { p.2 with area_beta := insertKey area.name p.2.beta p.2.area_beta }
      b'.output_areas }, mt.2)

/-- `conectomes_init_area` (src/non_lazy_brain.py lines 60-84), run after the
new area is already in `self.areas`: Bernoulli(p) stimulus→area matrices for
every stimulus; Bernoulli(p) area→area matrices in both directions for every
area (including the new one itself); Bernoulli(p) area→output matrices for
every output area, whose `area_beta` gets the output area's own beta. -/
def Brain.conectomes_init_area (b : Brain) (area : Area) (beta : ℚ)
    (u : Nat → ℚ) (c : Nat) : Brain × Nat :=
  let step1 := b.stimuli_connectomes.foldl (initArea_stim_step area beta u)
    (b, c)
  let step2 := step1.1.areas.foldl (initArea_area_step area beta u)
    (step1.1, [], step1.2)
  let b2 := { step2.1 with
    connectomes := insertKey area.name step2.2.1 step2.1.connectomes }
  b2.output_areas.foldl (initArea_out_step area u) (b2, step2.2.2)

/-- `add_area` (src/non_lazy_brain.py lines 37-58): assert the name is not an
output area's, register the area, initialize its connectomes.  A failed
assert is modelled as `none`. -/
def Brain.add_area (b : Brain) (name : String) (n k : Nat) (beta : ℚ)
    (u : Nat → ℚ) (c : Nat) : Option (Brain × Nat) :=
  if (lookup name b.output_areas).isSome then none
  else
    let area := mkArea name n k beta
    let b1 := { b with areas := insertKey name area b.areas }
    some (b1.conectomes_init_area area beta u c)

/-- A small concrete Brain used to evaluate the development: target area `A`
(n = 3, k = 2) receiving from source area `B` (n = 2, current winners `[0]`)
and stimulus `s` (k = 1). -/
def bex : Brain where
  p := 1/2
  stimuli := [("s", ⟨1⟩)]
  areas :=
    [("A", ⟨"A", 3, 2, 1/10, [("s", 1/10)], [("B", 1/10)],
        [false, false, false], 0, [], [], 0, false, []⟩),
     ("B", ⟨"B", 2, 1, 0, [], [], [true, false], 1, [0], [0], 1, false, []⟩)]
  output_areas := []
  connectomes := [("B", [("A", [[2, 0, 0], [0, 3, 1]])])]
  stimuli_connectomes := [("s", [("A", [[1, 2, 0]])])]
  output_connectomes := []
  output_stimuli_connectomes := []
  learning_mode := BrainLearningMode.DEFAULT

/-- The same concrete Brain with the Learning-Mode Controller in TESTING. -/
def btest : Brain := { bex with learning_mode := BrainLearningMode.TESTING }

/-- A concrete Brain with a TRAINING mode and an output area `o` whose
`desired_output` is `[7]`. -/
def bout : Brain where
  p := 1/2
  stimuli := []
  areas := []
  output_areas :=
    [("o", ⟨"o", 8, 1, 0, [], [],
        [false, false, false, false, false, false, false, false],
        0, [], [], 0, true, [7]⟩)]
  connectomes := []
  stimuli_connectomes := []
  output_connectomes := []
  output_stimuli_connectomes := []
  learning_mode := BrainLearningMode.TRAINING

/-- A concrete Brain in which source area `B` has `winners = [0]` but scratch
`_new_winners = [1]` — the state left by a projection round that updated `B`
before its targets (the enclosing `Brain.project` copies `_new_winners` into
`winners` only after all `project_into` calls of the round). -/
def bbug : Brain where
  p := 1/2
  stimuli := []
  areas :=
    [("A", ⟨"A", 1, 1, 1/2, [], [("B", 1/2)], [false], 0, [], [], 0,
        false, []⟩),
     ("B", ⟨"B", 2, 1, 0, [], [], [true, true], 2, [0], [1], 2, false, []⟩)]
  output_areas := []
  connectomes := [("B", [("A", [[1], [1]])])]
  stimuli_connectomes := []
  output_connectomes := []
  output_stimuli_connectomes := []
  learning_mode := BrainLearningMode.DEFAULT

/-- The constant-zero uniform stream (a legal draw sequence: 0 ∈ [0,1)). -/
def uzero : Nat → ℚ := fun _ => 0

/-- A Brain with sparsity p = 1 holding only the output area `o`, as built by
`add_output_area` on an empty Brain. -/
def b4a : Brain :=
  ((Brain.empty 1 BrainLearningMode.DEFAULT).add_output_area "o" 2 1 0).getD
    (Brain.empty 1 BrainLearningMode.DEFAULT)

/-- `b4a` after `add_stimulus "s" 1`: the stimulus is created after the
output area, so its stimulus→output connectome is drawn Bernoulli(p = 1). -/
def b4 : Brain := (b4a.add_stimulus "s" 1 uzero 0).1

/-- A Brain holding only the output area `o` (p = 1/2), for the naming-check
counterexample. -/
def b9 : Brain :=
  ((Brain.empty (1/2) BrainLearningMode.DEFAULT).add_output_area "o" 2 1 0).getD
    (Brain.empty (1/2) BrainLearningMode.DEFAULT)

/-- A Brain (p = 1/2) holding a stimulus `s` and an area `A`, about to
receive an output area. -/
def bc4 : Brain where
  p := 1/2
  stimuli := [("s", ⟨1⟩)]
  areas := [("A", mkArea "A" 2 1 (1/10))]
  output_areas := []
  connectomes := [("A", [("A", [[0, 1], [1, 0]])])]
  stimuli_connectomes := [("s", [("A", [[1, 0]])])]
  output_connectomes := []
  output_stimuli_connectomes := []
  learning_mode := BrainLearningMode.DEFAULT

/-- `bc4` after `add_output_area "o"`. -/
def bc4' : Brain := (bc4.add_output_area "o" 2 1 0).getD bc4

/-- A Brain with sparsity p = 0 holding only the output area `o`. -/
def bc0 : Brain where
  p := 0
  stimuli := []
  areas := []
  output_areas := [("o", mkOutputArea "o" 2 1)]
  connectomes := []
  stimuli_connectomes := []
  output_connectomes := []
  output_stimuli_connectomes := []
  learning_mode := BrainLearningMode.DEFAULT

/-- Every entry of the matrix is 1. -/
def allOnes (m : Mat) : Prop := ∀ r ∈ m, ∀ x ∈ r, x = (1 : ℚ)

instance (m : Mat) : Decidable (allOnes m) :=
  List.decidableBAll _ m

/-- Every entry of the matrix is 0. -/
def allZeros (m : Mat) : Prop := ∀ r ∈ m, ∀ x ∈ r, x = (0 : ℚ)

instance (m : Mat) : Decidable (allZeros m) :=
  List.decidableBAll _ m

/-- A legal uniform-draw stream: every value lies in `[0, 1)`. -/
def validU (u : Nat → ℚ) : Prop := ∀ i, 0 ≤ u i ∧ u i < 1

/-- The Registry part of a Brain: everything except the four weight
families. -/
def Brain.reg (b : Brain) :
    List (String × Stimulus) × List (String × Area) × List (String × Area) ×
      BrainLearningMode × ℚ :=
  (b.stimuli, b.areas, b.output_areas, b.learning_mode, b.p)

/-- The Store part of a Brain: the four weight families. -/
def Brain.weights (b : Brain) :
    List (String × List (String × Mat)) × List (String × List (String × Mat)) ×
      List (String × List (String × Mat)) ×
      List (String × List (String × Mat)) :=
  (b.connectomes, b.stimuli_connectomes, b.output_connectomes,
    b.output_stimuli_connectomes)

section DictLemmas

variable {α : Type _}

theorem lookup_setKey_self (key : String) (v : α) (l : List (String × α))
    (h : (lookup key l).isSome) : lookup key (setKey key v l) = some v := by
  induction l with
  | nil => simp [lookup] at h
  | cons p rest ih =>
    by_cases hp : p.1 = key
    · simp [setKey, hp, lookup]
    · simp only [lookup, hp, if_false] at h
      simp [setKey, hp, lookup, ih h]

theorem lookup_setKey_ne (key key' : String) (v : α) (l : List (String × α))
    (h : key' ≠ key) : lookup key' (setKey key v l) = lookup key' l := by
  induction l with
  | nil => simp [setKey]
  | cons p rest ih =>
    by_cases hp : p.1 = key
    · simp [setKey, hp, lookup, Ne.symm h, hp ▸ Ne.symm h]
    · simp [setKey, hp, lookup, ih]

theorem lookup_append (key : String) (l l' : List (String × α)) :
    lookup key (l ++ l') =
      ((lookup key l).map some).getD (lookup key l') := by
  induction l with
  | nil => simp [lookup]
  | cons p rest ih =>
    by_cases hp : p.1 = key <;> simp [lookup, hp, ih]

theorem lookup_insertKey_self (key : String) (v : α) (l : List (String × α)) :
    lookup key (insertKey key v l) = some v := by
  unfold insertKey
  by_cases h : (lookup key l).isSome
  · rw [if_pos h, lookup_setKey_self key v l h]
  · rw [if_neg h, lookup_append]
    rw [Option.not_isSome_iff_eq_none] at h
    simp [h, lookup]

theorem lookup_insertKey_ne (key key' : String) (v : α)
    (l : List (String × α)) (h : key' ≠ key) :
    lookup key' (insertKey key v l) = lookup key' l := by
  unfold insertKey
  by_cases hs : (lookup key l).isSome
  · rw [if_pos hs, lookup_setKey_ne key key' v l h]
  · rw [if_neg hs, lookup_append]
    cases hl : lookup key' l <;> simp [hl, lookup, Ne.symm h]

end DictLemmas

section FrameLemmas

/-- A `foldl` whose every step preserves an observation `g` preserves it. -/
theorem foldl_preserves {β γ α : Type _} (f : β → α → β) (g : β → γ)
    (l : List α) (h : ∀ b a, a ∈ l → g (f b a) = g b) :
    ∀ b : β, g (l.foldl f b) = g b := by
  induction l with
  | nil => intro b; rfl
  | cons x xs ih =>
    intro b
    rw [List.foldl_cons,
      ih (fun b a ha => h b a (List.mem_cons_of_mem _ ha)) (f b x)]
    exact h b x (List.mem_cons_self _ _)

theorem set_area_connectomes_reg (b : Brain) (f t : String) (m : Mat) :
    (b.set_area_connectomes f t m).reg = b.reg := by
  unfold Brain.set_area_connectomes
  split <;> rfl

theorem set_stimulus_connectomes_reg (b : Brain) (s t : String) (m : Mat) :
    (b.set_stimulus_connectomes s t m).reg = b.reg := by
  unfold Brain.set_stimulus_connectomes
  split <;> rfl

theorem update_connectomes_reg (b : Brain) (area : Area)
    (fs fas : List String) :
    (b.project_into_update_connectomes area fs fas).reg = b.reg := by
  unfold Brain.project_into_update_connectomes
  refine (foldl_preserves _ Brain.reg fas ?_ _).trans
    (foldl_preserves _ Brain.reg fs ?_ _)
  · intro b fa _
    refine foldl_preserves _ Brain.reg area.new_winners ?_ b
    intro b i _
    refine foldl_preserves _ Brain.reg _ ?_ b
    intro b j _
    exact set_area_connectomes_reg ..
  · intro b stim _
    refine foldl_preserves _ Brain.reg area.new_winners ?_ b
    intro b i _
    refine foldl_preserves _ Brain.reg _ ?_ b
    intro b j _
    exact set_stimulus_connectomes_reg ..

theorem set_area_weights (b : Brain) (name : String) (a : Area) :
    (b.set_area name a).weights = b.weights := by
  unfold Brain.set_area
  split <;> rfl

theorem get_area_set_area (b : Brain) (name : String) (a : Area)
    (h : (lookup name b.output_areas).isSome ∨
      (lookup name b.areas).isSome) :
    (b.set_area name a).get_area name = a := by
  unfold Brain.set_area Brain.get_area
  by_cases ho : (lookup name b.output_areas).isSome
  · simp only [ho, if_true]
    rw [lookup_setKey_self name a b.output_areas ho]
  · simp only [ho, if_false]
    rcases h with h | h
    · exact absurd h ho
    · rw [Option.not_isSome_iff_eq_none] at ho
      simp [ho, lookupD, lookup_setKey_self name a b.areas h]

theorem get_area_eq_of_reg (b b' : Brain) (name : String)
    (h : b'.reg = b.reg) : b'.get_area name = b.get_area name := by
  unfold Brain.get_area
  have h1 : b'.output_areas = b.output_areas := congrArg (·.2.2.1) h
  have h2 : b'.areas = b.areas := congrArg (·.2.1) h
  rw [h1, h2]

end FrameLemmas

section VecLemmas

theorem addVec_length (v w : Vec) :
    (addVec v w).length = min v.length w.length :=
  List.length_zipWith ..

theorem addVec_getD (v w : Vec) (j : Nat) (hv : j < v.length)
    (hw : j < w.length) :
    (addVec v w).getD j 0 = v.getD j 0 + w.getD j 0 := by
  have hj : j < (addVec v w).length := by
    rw [addVec_length]; exact lt_min hv hw
  rw [List.getD_eq_getElem _ _ hj, List.getD_eq_getElem _ _ hv,
    List.getD_eq_getElem _ _ hw]
  exact List.getElem_zipWith ..

theorem getD_replicate_zero (n j : Nat) :
    (List.replicate n (0 : ℚ)).getD j 0 = 0 := by
  by_cases h : j < n
  · rw [List.getD_eq_getElem _ _ (by simpa using h)]
    exact List.getElem_replicate ..
  · exact List.getD_eq_default _ _ (by simpa using Nat.le_of_not_lt h)

/-- A fold whose every step preserves vector length preserves it. -/
theorem foldl_vec_length {α : Type _} (step : Vec → α → Vec) (l : List α)
    (n : Nat) (h : ∀ v x, x ∈ l → v.length = n → (step v x).length = n) :
    ∀ acc : Vec, acc.length = n → (l.foldl step acc).length = n := by
  induction l with
  | nil => intro acc ha; exact ha
  | cons x xs ih =>
    intro acc ha
    exact ih (fun v y hy hv => h v y (List.mem_cons_of_mem _ hy) hv) _
      (h acc x (List.mem_cons_self _ _) ha)

/-- A fold whose every step adds `contrib x` at position `j` accumulates the
sum of the contributions there. -/
theorem foldl_vec_getD {α : Type _} (step : Vec → α → Vec) (l : List α)
    (n j : Nat) (contrib : α → ℚ)
    (h : ∀ v x, x ∈ l → v.length = n →
      (step v x).length = n ∧ (step v x).getD j 0 = v.getD j 0 + contrib x) :
    ∀ acc : Vec, acc.length = n →
      (l.foldl step acc).getD j 0 = acc.getD j 0 + (l.map contrib).sum := by
  induction l with
  | nil => intro acc _; simp
  | cons x xs ih =>
    intro acc ha
    have hx := h acc x (List.mem_cons_self _ _) ha
    rw [List.foldl_cons,
      ih (fun v y hy hv => h v y (List.mem_cons_of_mem _ hy) hv) _ hx.1,
      hx.2, List.map_cons, List.sum_cons]
    ring

theorem colSums_length (m : Mat) (n : Nat) (h : m.rowsLen n) :
    (colSums m n).length = n := by
  refine foldl_vec_length addVec m n ?_ _ (List.length_replicate ..)
  intro v r hr hv
  rw [addVec_length, hv, h r hr, Nat.min_self]

theorem colSums_getD (m : Mat) (n j : Nat) (h : m.rowsLen n) (hj : j < n) :
    (colSums m n).getD j 0 = (m.map (fun r => r.getD j 0)).sum := by
  have := foldl_vec_getD addVec m n j (fun r => r.getD j 0) ?_
    (List.replicate n 0) (List.length_replicate ..)
  · rw [colSums, this, getD_replicate_zero, zero_add]
  · intro v r hr hv
    constructor
    · rw [addVec_length, hv, h r hr, Nat.min_self]
    · exact addVec_getD v r j (hv ▸ hj) ((h r hr) ▸ hj)

/-- Summing a function over a list equals summing its `getD` values over the
index range. -/
theorem map_sum_eq_range_getD {α : Type _} (f : α → ℚ) (d : α) :
    ∀ l : List α,
      (l.map f).sum =
        ((List.range l.length).map (fun i => f (l.getD i d))).sum := by
  intro l
  induction l with
  | nil => simp
  | cons x xs ih =>
    rw [List.map_cons, List.sum_cons, List.length_cons,
      List.range_succ_eq_map, List.map_cons, List.sum_cons, List.getD_cons_zero,
      List.map_map, ih]
    rfl

end VecLemmas

section NlargestLemmas

theorem nlargest_length (k : Nat) (inputs : Vec) :
    (nlargest k inputs).length = min k inputs.length := by
  unfold nlargest
  rw [List.length_take, (List.perm_insertionSort _ _).length_eq,
    List.length_range]

theorem nlargest_mem_lt (k : Nat) (inputs : Vec) (i : Nat)
    (hi : i ∈ nlargest k inputs) : i < inputs.length := by
  have h1 : i ∈ (List.range inputs.length).insertionSort (argRel inputs) :=
    (List.take_sublist _ _).mem hi
  have h2 : i ∈ List.range inputs.length :=
    (List.perm_insertionSort _ _).mem_iff.mp h1
  exact List.mem_range.mp h2

theorem nlargest_nodup (k : Nat) (inputs : Vec) :
    (nlargest k inputs).Nodup := by
  have h1 : ((List.range inputs.length).insertionSort (argRel inputs)).Nodup :=
    ((List.perm_insertionSort _ _).nodup_iff).mpr (List.nodup_range _)
  exact (List.take_sublist _ _).nodup h1

theorem nlargest_dominates (k : Nat) (inputs : Vec) (i j : Nat)
    (hi : i ∈ nlargest k inputs) (hj : j < inputs.length)
    (hnj : j ∉ nlargest k inputs) :
    inputs.getD j 0 < inputs.getD i 0 ∨
      (inputs.getD j 0 = inputs.getD i 0 ∧ i < j) := by
  set s := (List.range inputs.length).insertionSort (argRel inputs) with hs
  have hsorted : s.Sorted (argRel inputs) := List.sorted_insertionSort _ _
  have hjs : j ∈ s :=
    (List.perm_insertionSort _ _).mem_iff.mpr (List.mem_range.mpr hj)
  have hsplit : s.take k ++ s.drop k = s := List.take_append_drop k s
  have hjdrop : j ∈ s.drop k := by
    rcases (List.mem_append.mp (hsplit ▸ hjs)) with h | h
    · exact absurd h hnj
    · exact h
  have hpair : ∀ a ∈ s.take k, ∀ b ∈ s.drop k, argRel inputs a b := by
    have := hsplit ▸ hsorted
    rw [List.Sorted, List.pairwise_append] at this
    exact this.2.2
  have hrel : argRel inputs i j := hpair i hi j hjdrop
  have hne : i ≠ j := fun he => hnj (he ▸ hi)
  rcases hrel with h | ⟨he, hle⟩
  · exact Or.inl h
  · exact Or.inr ⟨he.symm, Nat.lt_of_le_of_ne hle hne⟩

end NlargestLemmas

section SupportLemmas

theorem getD_set_self (l : List Bool) (w : Nat) (h : w < l.length) :
    (l.set w true).getD w false = true := by
  rw [List.getD_eq_getElem _ _ (by simpa using h)]
  exact List.getElem_set_self (by simpa using h)

theorem getD_set_ne {α : Type _} (l : List α) (i j : Nat) (v d : α)
    (h : i ≠ j) : (l.set i v).getD j d = l.getD j d := by
  by_cases hj : j < l.length
  · rw [List.getD_eq_getElem _ _ (by simpa using hj),
      List.getD_eq_getElem _ _ hj]
    exact List.getElem_set_ne h _
  · rw [List.getD_eq_default _ _ (by simpa using Nat.le_of_not_lt hj),
      List.getD_eq_default _ _ (Nat.le_of_not_lt hj)]

/-- The support-bookkeeping fold of `project_into_calculate_winners`:
walking the winners, it counts the previously-unset bits, sets every
winner's bit and changes no other bit. -/
theorem support_fold_spec (nw : List Nat) :
    ∀ (s : List Bool) (c : Nat), nw.Nodup → (∀ w ∈ nw, w < s.length) →
      (support_fold nw s c).2
        = c + (nw.filter (fun w => s.getD w false = false)).length ∧
      (support_fold nw s c).1.length = s.length ∧
      ∀ j, (support_fold nw s c).1.getD j false
          = (s.getD j false || decide (j ∈ nw)) := by
  unfold support_fold
  induction nw with
  | nil => intro s c _ _; simp
  | cons w t ih =>
    intro s c hnodup hb
    have hw : w < s.length := hb w (List.mem_cons_self _ _)
    have hwt : w ∉ t := (List.nodup_cons.mp hnodup).1
    have htn : t.Nodup := (List.nodup_cons.mp hnodup).2
    have hbt : ∀ x ∈ t, x < (s.set w true).length := by
      intro x hx
      rw [List.length_set]
      exact hb x (List.mem_cons_of_mem _ hx)
    have step := ih (s.set w true)
      (if s.getD w false = false then c + 1 else c) htn hbt
    rw [List.foldl_cons]
    refine ⟨?_, ?_, ?_⟩
    · rw [step.1]
      have hfilter : t.filter (fun x => (s.set w true).getD x false = false)
          = t.filter (fun x => s.getD x false = false) := by
        apply List.filter_congr
        intro x hx
        rw [getD_set_ne s w x true false (fun he => hwt (he ▸ hx))]
      rw [hfilter, List.filter_cons]
      by_cases hws : s.getD w false = false
      · rw [if_pos hws, if_pos (by simp only [decide_eq_true_eq]; exact hws),
          List.length_cons]
        omega
      · rw [if_neg hws, if_neg (by simp only [decide_eq_true_eq]; exact hws)]
    · rw [step.2.1, List.length_set]
    · intro j
      rw [step.2.2 j]
      by_cases hj : j = w
      · subst hj
        rw [getD_set_self s j hw]
        simp [List.mem_cons]
      · rw [getD_set_ne s w j true false (fun he => hj he.symm)]
        simp [List.mem_cons, hj]

end SupportLemmas

section ProjectIntoLemmas

/-- The two components of `project_into_calculate_winners`, read off the
record it builds. -/
theorem calculate_winners_fields (mode : BrainLearningMode) (area : Area)
    (inputs : Vec) :
    (Brain.project_into_calculate_winners mode area inputs).1
      = { area with
          new_winners := winner_branch mode area inputs
          support :=
            (support_fold (winner_branch mode area inputs) area.support 0).1
          new_support_size :=
            (support_fold (winner_branch mode area inputs) area.support 0).2
              + area.support_size } ∧
    (Brain.project_into_calculate_winners mode area inputs).2
      = (support_fold (winner_branch mode area inputs) area.support 0).2 :=
  ⟨rfl, rfl⟩

/-- After `project_into`, the target's record is exactly the one built by
`project_into_calculate_winners` on this call's inputs. -/
theorem project_into_get_area (b : Brain) (name : String)
    (fs fas : List String)
    (h : (lookup name b.output_areas).isSome ∨
      (lookup name b.areas).isSome) :
    ((b.project_into name fs fas).1).get_area name
      = (Brain.project_into_calculate_winners b.learning_mode
          (b.get_area name)
          (b.project_into_calculate_inputs (b.get_area name) fs fas)).1 := by
  unfold Brain.project_into
  dsimp only
  by_cases hm : b.learning_mode ≠ BrainLearningMode.TESTING
  · rw [if_pos hm, get_area_eq_of_reg _ _ name (update_connectomes_reg ..)]
    exact get_area_set_area b name _ h
  · rw [if_neg hm]
    exact get_area_set_area b name _ h

/-- The return value of `project_into` is the `num_first_winners` of its
winner-calculation step. -/
theorem project_into_num (b : Brain) (name : String) (fs fas : List String) :
    (b.project_into name fs fas).2
      = (Brain.project_into_calculate_winners b.learning_mode
          (b.get_area name)
          (b.project_into_calculate_inputs (b.get_area name) fs fas)).2 :=
  rfl

end ProjectIntoLemmas

/-- C3: for every call to `project_into` while the learning mode is TESTING,
all four connectome-weight families of the Brain are identical before and
after the call — the plasticity update is skipped entirely and no other part
of the step writes a weight. -/
theorem C3_testing_preserves_weights (b : Brain) (name : String)
    (fs fas : List String)
    (h : b.learning_mode = BrainLearningMode.TESTING) :
    ((b.project_into name fs fas).1).weights = b.weights := by
  unfold Brain.project_into
  dsimp only
  rw [if_neg (by simp [h])]
  exact set_area_weights ..

/-- Witness for C3 at the concrete TESTING Brain. -/
theorem C3_witness :
    btest.learning_mode = BrainLearningMode.TESTING ∧
      ((btest.project_into "A" ["s"] ["B"]).1).weights = btest.weights :=
  ⟨rfl, C3_testing_preserves_weights btest "A" ["s"] ["B"] rfl⟩

/-- C5: if the learning mode is TRAINING and the target of `project_into` is
an output area, the new winners equal `desired_output` exactly, for every
Brain state (hence independent of the computed inputs and of every
connectome weight). -/
theorem C5_training_clamps_output (b : Brain) (name : String)
    (fs fas : List String)
    (hmode : b.learning_mode = BrainLearningMode.TRAINING)
    (hout : (lookup name b.output_areas).isSome)
    (hflag : (b.get_area name).is_output = true) :
    (((b.project_into name fs fas).1).get_area name).new_winners
      = (b.get_area name).desired_output := by
  rw [project_into_get_area b name fs fas (Or.inl hout),
    (calculate_winners_fields ..).1]
  show winner_branch _ _ _ = _
  unfold winner_branch
  rw [if_neg]
  simp [hmode, hflag]

/-- Witness for C5: `desired_output = [7]` yields winners `[7]`. -/
theorem C5_witness :
    bout.learning_mode = BrainLearningMode.TRAINING ∧
    (lookup "o" bout.output_areas).isSome = true ∧
    (bout.get_area "o").is_output = true ∧
    (((bout.project_into "o" [] []).1).get_area "o").new_winners = [7] :=
  ⟨rfl, rfl, rfl,
    (C5_training_clamps_output bout "o" [] [] rfl rfl rfl).trans rfl⟩

/-- C1: for every call to `project_into` on a target not in the
TRAINING-clamped case, the computed new-winner list has exactly
`min(k, n)` indices, all below `n`, without repetition, and they are the
indices of the `k` largest inputs with ties broken in favour of the lower
index (every selected index beats every unselected one, or ties it with a
smaller index). -/
theorem C1_winner_selection (b : Brain) (name : String) (fs fas : List String)
    (hmode : ¬(b.learning_mode = BrainLearningMode.TRAINING ∧
      (b.get_area name).is_output = true))
    (hpresent : (lookup name b.output_areas).isSome ∨
      (lookup name b.areas).isSome)
    (hlen : (b.project_into_calculate_inputs (b.get_area name) fs fas).length
      = (b.get_area name).n) :
    (((b.project_into name fs fas).1).get_area name).new_winners.length
        = min (b.get_area name).k (b.get_area name).n ∧
    (∀ i ∈ (((b.project_into name fs fas).1).get_area name).new_winners,
        i < (b.get_area name).n) ∧
    (((b.project_into name fs fas).1).get_area name).new_winners.Nodup ∧
    (∀ i ∈ (((b.project_into name fs fas).1).get_area name).new_winners,
      ∀ j, j < (b.get_area name).n →
        j ∉ (((b.project_into name fs fas).1).get_area name).new_winners →
        (b.project_into_calculate_inputs (b.get_area name) fs fas).getD j 0 <
          (b.project_into_calculate_inputs (b.get_area name) fs fas).getD i 0
        ∨ ((b.project_into_calculate_inputs (b.get_area name) fs fas).getD j 0
            = (b.project_into_calculate_inputs (b.get_area name) fs fas).getD
                i 0
          ∧ i < j)) := by
  have hnw : (((b.project_into name fs fas).1).get_area name).new_winners
      = nlargest (b.get_area name).k
          (b.project_into_calculate_inputs (b.get_area name) fs fas) := by
    rw [project_into_get_area b name fs fas hpresent,
      (calculate_winners_fields ..).1]
    show winner_branch _ _ _ = _
    unfold winner_branch
    rw [if_pos]
    rcases Decidable.not_and_iff_or_not.mp hmode with h | h
    · exact Or.inl h
    · exact Or.inr (Bool.not_eq_true _ ▸ h)
  rw [hnw]
  refine ⟨?_, ?_, nlargest_nodup .., ?_⟩
  · rw [nlargest_length, hlen]
  · intro i hi
    exact hlen ▸ nlargest_mem_lt _ _ i hi
  · intro i hi j hj hnj
    exact nlargest_dominates _ _ i j hi (hlen ▸ hj) hnj

/-- Witness for C1 at the concrete Brain `bex`, target `A`. -/
theorem C1_witness :
    (¬(bex.learning_mode = BrainLearningMode.TRAINING ∧
      (bex.get_area "A").is_output = true)) ∧
    ((lookup "A" bex.output_areas).isSome ∨ (lookup "A" bex.areas).isSome) ∧
    (bex.project_into_calculate_inputs (bex.get_area "A") ["s"] ["B"]).length
      = (bex.get_area "A").n ∧
    ((((bex.project_into "A" ["s"] ["B"]).1).get_area "A").new_winners.length
        = min (bex.get_area "A").k (bex.get_area "A").n ∧
    (∀ i ∈ (((bex.project_into "A" ["s"] ["B"]).1).get_area "A").new_winners,
        i < (bex.get_area "A").n) ∧
    (((bex.project_into "A" ["s"] ["B"]).1).get_area "A").new_winners.Nodup ∧
    (∀ i ∈ (((bex.project_into "A" ["s"] ["B"]).1).get_area "A").new_winners,
      ∀ j, j < (bex.get_area "A").n →
        j ∉ (((bex.project_into "A" ["s"] ["B"]).1).get_area "A").new_winners →
        (bex.project_into_calculate_inputs (bex.get_area "A") ["s"]
            ["B"]).getD j 0 <
          (bex.project_into_calculate_inputs (bex.get_area "A") ["s"]
            ["B"]).getD i 0
        ∨ ((bex.project_into_calculate_inputs (bex.get_area "A") ["s"]
              ["B"]).getD j 0
            = (bex.project_into_calculate_inputs (bex.get_area "A") ["s"]
                ["B"]).getD i 0
          ∧ i < j))) :=
  ⟨by decide, by decide, by decide,
    C1_winner_selection bex "A" ["s"] ["B"] (by decide) (by decide)
      (by decide)⟩

/-- C7: `project_into` returns exactly the number of new winners whose
support bit was unset before the call, sets the support bit of every new
winner, and the committed support size (the `_new_support_size` installed by
the enclosing `Brain.project`, modelled from the spec by `commit_area`)
equals the prior support size plus the returned count — in particular the
support size never decreases. -/
theorem C7_support_accounting (b : Brain) (name : String)
    (fs fas : List String)
    (hpresent : (lookup name b.output_areas).isSome ∨
      (lookup name b.areas).isSome)
    (hnodup :
      (((b.project_into name fs fas).1).get_area name).new_winners.Nodup)
    (hbound :
      ∀ w ∈ (((b.project_into name fs fas).1).get_area name).new_winners,
        w < (b.get_area name).support.length) :
    (b.project_into name fs fas).2
      = ((((b.project_into name fs fas).1).get_area name).new_winners.filter
          (fun w => (b.get_area name).support.getD w false = false)).length ∧
    (∀ w ∈ (((b.project_into name fs fas).1).get_area name).new_winners,
      (((b.project_into name fs fas).1).get_area name).support.getD w false
        = true) ∧
    (commit_area
        (((b.project_into name fs fas).1).get_area name)).support_size
      = (b.get_area name).support_size + (b.project_into name fs fas).2 ∧
    (b.get_area name).support_size ≤
      (commit_area
        (((b.project_into name fs fas).1).get_area name)).support_size := by
  have hga := project_into_get_area b name fs fas hpresent
  rw [hga] at hnodup hbound ⊢
  rw [project_into_num b name fs fas]
  rw [(calculate_winners_fields ..).1] at hnodup hbound ⊢
  rw [(calculate_winners_fields ..).2]
  dsimp only [commit_area] at hnodup hbound ⊢
  have hspec := support_fold_spec
    (winner_branch b.learning_mode (b.get_area name)
      (b.project_into_calculate_inputs (b.get_area name) fs fas))
    (b.get_area name).support 0 hnodup hbound
  refine ⟨?_, ?_, ?_, ?_⟩
  · rw [hspec.1, Nat.zero_add]
  · intro w hw
    rw [hspec.2.2 w]
    simp [hw]
  · omega
  · omega

/-- Witness for C7 at the concrete Brain `bex`, target `A`. -/
theorem C7_witness :
    ((lookup "A" bex.output_areas).isSome ∨ (lookup "A" bex.areas).isSome) ∧
    (((bex.project_into "A" ["s"] ["B"]).1).get_area "A").new_winners.Nodup ∧
    (∀ w ∈ (((bex.project_into "A" ["s"] ["B"]).1).get_area "A").new_winners,
      w < (bex.get_area "A").support.length) ∧
    ((bex.project_into "A" ["s"] ["B"]).2
      = ((((bex.project_into "A" ["s"] ["B"]).1).get_area
            "A").new_winners.filter
          (fun w => (bex.get_area "A").support.getD w false = false)).length ∧
    (∀ w ∈ (((bex.project_into "A" ["s"] ["B"]).1).get_area "A").new_winners,
      (((bex.project_into "A" ["s"] ["B"]).1).get_area "A").support.getD w
          false = true) ∧
    (commit_area
        (((bex.project_into "A" ["s"] ["B"]).1).get_area "A")).support_size
      = (bex.get_area "A").support_size
        + (bex.project_into "A" ["s"] ["B"]).2 ∧
    (bex.get_area "A").support_size ≤
      (commit_area
        (((bex.project_into "A" ["s"] ["B"]).1).get_area "A")).support_size) :=
  ⟨by decide, by decide, by decide,
    C7_support_accounting bex "A" ["s"] ["B"] (by decide) (by decide)
      (by decide)⟩

/-- C10: even in TESTING mode, `project_into` still mutates population
state: the target's record becomes exactly the record built by the
winner-calculation step (fresh `_new_winners` and `_new_support_size`), the
support bit of every selected winner is set and previously-set bits stay
set; only the four connectome-weight families are exempt from mutation. -/
theorem C10_testing_still_mutates (b : Brain) (name : String)
    (fs fas : List String)
    (h : b.learning_mode = BrainLearningMode.TESTING)
    (hpresent : (lookup name b.output_areas).isSome ∨
      (lookup name b.areas).isSome)
    (hnodup :
      (((b.project_into name fs fas).1).get_area name).new_winners.Nodup)
    (hbound :
      ∀ w ∈ (((b.project_into name fs fas).1).get_area name).new_winners,
        w < (b.get_area name).support.length) :
    ((b.project_into name fs fas).1).weights = b.weights ∧
    ((b.project_into name fs fas).1).get_area name
      = (Brain.project_into_calculate_winners b.learning_mode
          (b.get_area name)
          (b.project_into_calculate_inputs (b.get_area name) fs fas)).1 ∧
    (∀ w ∈ (((b.project_into name fs fas).1).get_area name).new_winners,
      (((b.project_into name fs fas).1).get_area name).support.getD w false
        = true) ∧
    (∀ j, (b.get_area name).support.getD j false = true →
      (((b.project_into name fs fas).1).get_area name).support.getD j false
        = true) ∧
    (((b.project_into name fs fas).1).get_area name).new_support_size
      = (b.project_into name fs fas).2 + (b.get_area name).support_size := by
  have hga := project_into_get_area b name fs fas hpresent
  refine ⟨C3_testing_preserves_weights b name fs fas h, hga, ?_, ?_, ?_⟩
  · rw [hga] at hnodup hbound ⊢
    rw [(calculate_winners_fields ..).1] at hnodup hbound ⊢
    dsimp only at hnodup hbound ⊢
    intro w hw
    rw [(support_fold_spec _ _ _ hnodup hbound).2.2 w]
    simp [hw]
  · rw [hga] at hnodup hbound ⊢
    rw [(calculate_winners_fields ..).1] at hnodup hbound ⊢
    dsimp only at hnodup hbound ⊢
    intro j hj
    rw [(support_fold_spec _ _ _ hnodup hbound).2.2 j, hj, Bool.true_or]
  · rw [hga, project_into_num b name fs fas,
      (calculate_winners_fields ..).1, (calculate_winners_fields ..).2]

/-- Witness for C10 at the concrete TESTING Brain `btest`, target `A`. -/
theorem C10_witness :
    btest.learning_mode = BrainLearningMode.TESTING ∧
    ((lookup "A" btest.output_areas).isSome ∨
      (lookup "A" btest.areas).isSome) ∧
    (((btest.project_into "A" ["s"] ["B"]).1).get_area
        "A").new_winners.Nodup ∧
    (∀ w ∈ (((btest.project_into "A" ["s"] ["B"]).1).get_area
        "A").new_winners,
      w < (btest.get_area "A").support.length) ∧
    (((btest.project_into "A" ["s"] ["B"]).1).weights = btest.weights ∧
    ((btest.project_into "A" ["s"] ["B"]).1).get_area "A"
      = (Brain.project_into_calculate_winners btest.learning_mode
          (btest.get_area "A")
          (btest.project_into_calculate_inputs (btest.get_area "A") ["s"]
            ["B"])).1 ∧
    (∀ w ∈ (((btest.project_into "A" ["s"] ["B"]).1).get_area
        "A").new_winners,
      (((btest.project_into "A" ["s"] ["B"]).1).get_area "A").support.getD w
          false = true) ∧
    (∀ j, (btest.get_area "A").support.getD j false = true →
      (((btest.project_into "A" ["s"] ["B"]).1).get_area "A").support.getD j
          false = true) ∧
    (((btest.project_into "A" ["s"] ["B"]).1).get_area
        "A").new_support_size
      = (btest.project_into "A" ["s"] ["B"]).2
        + (btest.get_area "A").support_size) :=
  ⟨rfl, by decide, by decide, by decide,
    C10_testing_still_mutates btest "A" ["s"] ["B"] rfl (by decide)
      (by decide) (by decide)⟩

/-- C6: the input vector computed by `project_into_calculate_inputs` has, at
each target neuron `j`, the sum over each source area and each of its
current winners of the connectome entry `(winner, j)`, plus the sum over
each stimulus of the column sum of column `j` over all of its `k` rows;
source-area neurons that are not current winners contribute nothing. -/
theorem C6_input_aggregation (b : Brain) (area : Area) (fs fas : List String)
    (j : Nat) (hj : j < area.n)
    (hA : ∀ fa ∈ fas,
      (b.get_area_connectomes fa area.name).rowsLen area.n ∧
      ∀ w ∈ (lookupD fa b.areas default).winners,
        w < (b.get_area_connectomes fa area.name).length)
    (hS : ∀ s ∈ fs,
      (b.get_stimulus_connectomes s area.name).rowsLen area.n ∧
      (b.get_stimulus_connectomes s area.name).length
        = (lookupD s b.stimuli ⟨0⟩).k) :
    (b.project_into_calculate_inputs area fs fas).getD j 0
      = (fas.map (fun fa =>
          ((lookupD fa b.areas default).winners.map
            (fun w => (b.get_area_connectomes fa area.name).entry w j)).sum)).sum
        + (fs.map (fun s =>
            ((List.range (lookupD s b.stimuli ⟨0⟩).k).map
              (fun i =>
                (b.get_stimulus_connectomes s area.name).entry i j)).sum)).sum
    := by
  have hrow : ∀ fa ∈ fas, ∀ w ∈ (lookupD fa b.areas default).winners,
      ((b.get_area_connectomes fa area.name).getD w []).length = area.n := by
    intro fa hfa w hw
    apply (hA fa hfa).1
    rw [List.getD_eq_getElem _ _ ((hA fa hfa).2 w hw)]
    exact List.getElem_mem _
  have hinner : ∀ fa ∈ fas, ∀ acc : Vec, acc.length = area.n →
      ((lookupD fa b.areas default).winners.foldl
          (fun acc w =>
            addVec acc ((b.get_area_connectomes fa area.name).getD w []))
          acc).length = area.n ∧
      ((lookupD fa b.areas default).winners.foldl
          (fun acc w =>
            addVec acc ((b.get_area_connectomes fa area.name).getD w []))
          acc).getD j 0
        = acc.getD j 0 + ((lookupD fa b.areas default).winners.map
            (fun w => (b.get_area_connectomes fa area.name).entry w j)).sum
    := by
    intro fa hfa acc hacc
    have hstep : ∀ (v : Vec) w, w ∈ (lookupD fa b.areas default).winners →
        v.length = area.n →
        (addVec v ((b.get_area_connectomes fa area.name).getD w [])).length
          = area.n ∧
        (addVec v
            ((b.get_area_connectomes fa area.name).getD w [])).getD j 0
          = v.getD j 0 + (b.get_area_connectomes fa area.name).entry w j := by
      intro v w hw hv
      refine ⟨?_, ?_⟩
      · rw [addVec_length, hv, hrow fa hfa w hw]
        exact Nat.min_self _
      · exact addVec_getD _ _ _ (hv ▸ hj) ((hrow fa hfa w hw) ▸ hj)
    exact ⟨foldl_vec_length _ _ area.n (fun v x hx hv => (hstep v x hx hv).1)
        acc hacc,
      foldl_vec_getD _ _ area.n j _ hstep acc hacc⟩
  have h0len : (List.replicate area.n (0 : ℚ)).length = area.n :=
    List.length_replicate ..
  have houter : ∀ acc : Vec, acc.length = area.n →
      (fas.foldl (fun acc fa =>
          (lookupD fa b.areas default).winners.foldl
            (fun acc w =>
              addVec acc ((b.get_area_connectomes fa area.name).getD w []))
            acc) acc).length = area.n ∧
      (fas.foldl (fun acc fa =>
          (lookupD fa b.areas default).winners.foldl
            (fun acc w =>
              addVec acc ((b.get_area_connectomes fa area.name).getD w []))
            acc) acc).getD j 0
        = acc.getD j 0 + (fas.map (fun fa =>
            ((lookupD fa b.areas default).winners.map
              (fun w =>
                (b.get_area_connectomes fa area.name).entry w j)).sum)).sum
    := by
    intro acc hacc
    exact ⟨foldl_vec_length _ _ area.n
        (fun v x hx hv => (hinner x hx v hv).1) acc hacc,
      foldl_vec_getD _ _ area.n j _
        (fun v x hx hv => hinner x hx v hv) acc hacc⟩
  have hstimstep : ∀ (v : Vec) s, s ∈ fs → v.length = area.n →
      (addVec v
          (colSums (b.get_stimulus_connectomes s area.name) area.n)).length
        = area.n ∧
      (addVec v
          (colSums (b.get_stimulus_connectomes s area.name) area.n)).getD j 0
        = v.getD j 0 + ((List.range (lookupD s b.stimuli ⟨0⟩).k).map
            (fun i => (b.get_stimulus_connectomes s area.name).entry i j)).sum
    := by
    intro v s hs hv
    have hcl := colSums_length (b.get_stimulus_connectomes s area.name)
      area.n (hS s hs).1
    refine ⟨?_, ?_⟩
    · rw [addVec_length, hv, hcl]
      exact Nat.min_self _
    · rw [addVec_getD _ _ _ (by rw [hv]; exact hj) (by rw [hcl]; exact hj),
        colSums_getD _ _ _ (hS s hs).1 hj,
        map_sum_eq_range_getD (fun r => r.getD j 0) []
          (b.get_stimulus_connectomes s area.name), (hS s hs).2]
      rfl
  unfold Brain.project_into_calculate_inputs
  dsimp only
  rw [foldl_vec_getD _ fs area.n j _ (fun v x hx hv => hstimstep v x hx hv) _
      (houter _ h0len).1,
    (houter _ h0len).2, getD_replicate_zero, zero_add]

/-- Witness for C6 at the concrete Brain `bex`, target `A`, column 0. -/
theorem C6_witness :
    (0 < (bex.get_area "A").n) ∧
    (∀ fa ∈ ["B"],
      (bex.get_area_connectomes fa (bex.get_area "A").name).rowsLen
        (bex.get_area "A").n ∧
      ∀ w ∈ (lookupD fa bex.areas default).winners,
        w < (bex.get_area_connectomes fa (bex.get_area "A").name).length) ∧
    (∀ s ∈ ["s"],
      (bex.get_stimulus_connectomes s (bex.get_area "A").name).rowsLen
        (bex.get_area "A").n ∧
      (bex.get_stimulus_connectomes s (bex.get_area "A").name).length
        = (lookupD s bex.stimuli ⟨0⟩).k) ∧
    (bex.project_into_calculate_inputs (bex.get_area "A") ["s"] ["B"]).getD
        0 0
      = (["B"].map (fun fa =>
          ((lookupD fa bex.areas default).winners.map
            (fun w =>
              (bex.get_area_connectomes fa
                (bex.get_area "A").name).entry w 0)).sum)).sum
        + (["s"].map (fun s =>
            ((List.range (lookupD s bex.stimuli ⟨0⟩).k).map
              (fun i =>
                (bex.get_stimulus_connectomes s
                  (bex.get_area "A").name).entry i 0)).sum)).sum :=
  ⟨by decide, by decide, by decide,
    C6_input_aggregation bex (bex.get_area "A") ["s"] ["B"] 0 (by decide)
      (by decide) (by decide)⟩

/-- Counterexample to C8 as stated: at the concrete Brain `bex`,
`project_into` on `A` selects winners `[0, 1]` (recorded in the scratch
field `_new_winners`), yet `A.winners` still holds its pre-call value `[]`
when the call returns — `project_into` itself never writes `winners`. -/
theorem C8_counterexample :
    (((bex.project_into "A" ["s"] ["B"]).1).get_area "A").new_winners
        = [0, 1] ∧
    (bex.get_area "A").winners = [] ∧
    (((bex.project_into "A" ["s"] ["B"]).1).get_area "A").winners = [] ∧
    ¬((((bex.project_into "A" ["s"] ["B"]).1).get_area "A").winners
        = (((bex.project_into "A" ["s"] ["B"]).1).get_area
            "A").new_winners) := by
  decide

/-- C8 amended: after `project_into` on target `A` returns, the winner set
newly selected during that call sits in `A._new_winners`; `A.winners` is
unchanged by `project_into` itself, and becomes the new winner set only at
the commit performed by the enclosing `Brain.project` (modelled from the
spec by `commit_area`), which is what a population projecting from `A` in a
subsequent step reads. -/
theorem C8_winners_amended (b : Brain) (name : String) (fs fas : List String)
    (hpresent : (lookup name b.output_areas).isSome ∨
      (lookup name b.areas).isSome) :
    (((b.project_into name fs fas).1).get_area name).new_winners
      = winner_branch b.learning_mode (b.get_area name)
          (b.project_into_calculate_inputs (b.get_area name) fs fas) ∧
    (((b.project_into name fs fas).1).get_area name).winners
      = (b.get_area name).winners ∧
    (commit_area (((b.project_into name fs fas).1).get_area name)).winners
      = (((b.project_into name fs fas).1).get_area name).new_winners := by
  rw [project_into_get_area b name fs fas hpresent,
    (calculate_winners_fields ..).1]
  exact ⟨rfl, rfl, rfl⟩

/-- Witness for the amended C8 at the concrete Brain `bex`. -/
theorem C8_witness :
    ((lookup "A" bex.output_areas).isSome ∨ (lookup "A" bex.areas).isSome) ∧
    ((((bex.project_into "A" ["s"] ["B"]).1).get_area "A").new_winners
      = winner_branch bex.learning_mode (bex.get_area "A")
          (bex.project_into_calculate_inputs (bex.get_area "A") ["s"]
            ["B"]) ∧
    (((bex.project_into "A" ["s"] ["B"]).1).get_area "A").winners
      = (bex.get_area "A").winners ∧
    (commit_area
        (((bex.project_into "A" ["s"] ["B"]).1).get_area "A")).winners
      = (((bex.project_into "A" ["s"] ["B"]).1).get_area "A").new_winners) :=
  ⟨by decide, C8_winners_amended bex "A" ["s"] ["B"] (by decide)⟩

/-- C2, behaviour of the code at the failing input: at the concrete Brain
`bbug`, source `B` fired with `winners = [0]` (that row produced the whole
input), but the plasticity update multiplies row 1 — `B._new_winners` —
leaving the fired row 0 untouched: the connectome goes from `[[1], [1]]` to
`[[1], [3/2]]` instead of the `[[3/2], [1]]` the claim (and the code's own
comment, line 174) prescribes. -/
theorem C2_code_behavior :
    bbug.learning_mode ≠ BrainLearningMode.TESTING ∧
    (lookupD "B" bbug.areas default).winners = [0] ∧
    (lookupD "B" bbug.areas default).new_winners = [1] ∧
    lookupD "B" (bbug.get_area "A").area_beta 0 = 1/2 ∧
    bbug.get_area_connectomes "B" "A" = [[1], [1]] ∧
    bbug.project_into_calculate_inputs (bbug.get_area "A") [] ["B"] = [1] ∧
    (((bbug.project_into "A" [] ["B"]).1).get_area "A").new_winners = [0] ∧
    ((bbug.project_into "A" [] ["B"]).1).get_area_connectomes "B" "A"
      = [[1], [3/2]] ∧
    ¬(((bbug.project_into "A" [] ["B"]).1).get_area_connectomes "B" "A"
        = [[3/2], [1]]) := by
  decide

section CreationLemmas

theorem binomialMat_length (u : Nat → ℚ) (c : Nat) (p : ℚ) (rows cols : Nat) :
    (binomialMat u c p rows cols).1.length = rows := by
  simp [binomialMat]

theorem binomialMat_allOnes (u : Nat → ℚ) (c : Nat) (rows cols : Nat)
    (hu : validU u) : allOnes (binomialMat u c 1 rows cols).1 := by
  intro r hr x hx
  simp only [binomialMat, List.mem_map] at hr
  obtain ⟨i, _, hi⟩ := hr
  subst hi
  simp only [binomialRow, List.mem_map] at hx
  obtain ⟨j, _, hj⟩ := hx
  subst hj
  rw [if_pos (hu _).2]

theorem binomialMat_allZeros (u : Nat → ℚ) (c : Nat) (rows cols : Nat)
    (hu : validU u) : allZeros (binomialMat u c 0 rows cols).1 := by
  intro r hr x hx
  simp only [binomialMat, List.mem_map] at hr
  obtain ⟨i, _, hi⟩ := hr
  subst hi
  simp only [binomialRow, List.mem_map] at hx
  obtain ⟨j, _, hj⟩ := hx
  subst hj
  rw [if_neg (not_lt.mpr (hu _).1)]

theorem lookup_eq_some_mem {α : Type _} (key : String)
    (l : List (String × α)) (v : α) (h : lookup key l = some v) :
    (key, v) ∈ l := by
  induction l with
  | nil => simp [lookup] at h
  | cons p rest ih =>
    by_cases hp : p.1 = key
    · simp only [lookup, hp, if_true, Option.some.injEq] at h
      subst h
      subst hp
      exact List.mem_cons_self _ _
    · simp only [lookup, hp, if_false] at h
      exact List.mem_cons_of_mem _ (ih h)

theorem lookup_insertKey_isSome {α : Type _} (key q : String) (v : α)
    (l : List (String × α)) (h : (lookup key l).isSome) :
    (lookup key (insertKey q v l)).isSome := by
  by_cases hq : key = q
  · subst hq
    rw [lookup_insertKey_self]
    rfl
  · rw [lookup_insertKey_ne q key v l hq]
    exact h

/-- The stimulus loop of `conectomes_init_output_area` leaves the Registry
and the other families alone and stores, for each iterated stimulus, the
all-zero stimulus→output matrix under `stimuli_connectomes[stim][name]`. -/
theorem initOut_stim_loop_spec (area : Area) (beta : ℚ) :
    ∀ (l : List (String × List (String × Mat))) (b : Brain),
      (l.map Prod.fst).Nodup →
      (l.foldl (initOut_stim_step area beta) b).stimuli = b.stimuli ∧
      (l.foldl (initOut_stim_step area beta) b).areas = b.areas ∧
      (l.foldl (initOut_stim_step area beta) b).output_connectomes
        = b.output_connectomes ∧
      (∀ key, key ∉ l.map Prod.fst →
        lookup key
          (l.foldl (initOut_stim_step area beta) b).stimuli_connectomes
          = lookup key b.stimuli_connectomes) ∧
      (∀ p ∈ l,
        lookupD area.name
          (lookupD p.1
            (l.foldl (initOut_stim_step area beta) b).stimuli_connectomes [])
          []
          = zerosMat (lookupD p.1 b.stimuli ⟨0⟩).k area.n) := by
  intro l
  induction l with
  | nil => intro b _; exact ⟨rfl, rfl, rfl, fun _ _ => rfl, fun p hp => absurd hp (List.not_mem_nil p)⟩
  | cons hd t ih =>
    intro b hnodup
    rw [List.map_cons, List.nodup_cons] at hnodup
    have IH := ih (initOut_stim_step area beta b hd) hnodup.2
    have hsc : (initOut_stim_step area beta b hd).stimuli_connectomes
        = insertKey hd.1
            (insertKey area.name
              (zerosMat (lookupD hd.1 b.stimuli ⟨0⟩).k area.n)
              (lookupD hd.1 b.stimuli_connectomes []))
            b.stimuli_connectomes := rfl
    refine ⟨IH.1, IH.2.1, IH.2.2.1, ?_, ?_⟩
    · intro key hkey
      rw [List.foldl_cons, IH.2.2.2.1 key
        (fun hk => hkey (List.mem_cons_of_mem _ hk)), hsc,
        lookup_insertKey_ne hd.1 key _ _
          (fun he => hkey (he ▸ List.mem_cons_self _ _))]
    · intro p hp
      rcases List.mem_cons.mp hp with he | ht
      · subst he
        rw [List.foldl_cons]
        simp only [lookupD]
        rw [IH.2.2.2.1 p.1 hnodup.1, hsc, lookup_insertKey_self,
          Option.getD_some, lookup_insertKey_self, Option.getD_some]
        rfl
      · rw [List.foldl_cons, IH.2.2.2.2 p ht]
        have : (initOut_stim_step area beta b hd).stimuli = b.stimuli := rfl
        rw [this]

/-- The area loop of `conectomes_init_output_area` leaves `stimuli` and
`stimuli_connectomes` alone and stores, for each iterated area, the all-one
area→output matrix under `output_connectomes[area][name]`. -/
theorem initOut_area_loop_spec (area : Area) (beta : ℚ) :
    ∀ (l : List (String × Area)) (b : Brain),
      (l.map Prod.fst).Nodup →
      (l.foldl (initOut_area_step area beta) b).stimuli = b.stimuli ∧
      (l.foldl (initOut_area_step area beta) b).stimuli_connectomes
        = b.stimuli_connectomes ∧
      (∀ key, key ∉ l.map Prod.fst →
        lookup key
          (l.foldl (initOut_area_step area beta) b).output_connectomes
          = lookup key b.output_connectomes) ∧
      (∀ p ∈ l,
        lookupD area.name
          (lookupD p.1
            (l.foldl (initOut_area_step area beta) b).output_connectomes [])
          []
          = onesMat p.2.n area.n) := by
  intro l
  induction l with
  | nil => intro b _; exact ⟨rfl, rfl, fun _ _ => rfl, fun p hp => absurd hp (List.not_mem_nil p)⟩
  | cons hd t ih =>
    intro b hnodup
    rw [List.map_cons, List.nodup_cons] at hnodup
    have IH := ih (initOut_area_step area beta b hd) hnodup.2
    have hoc : (initOut_area_step area beta b hd).output_connectomes
        = insertKey hd.1
            (insertKey area.name (onesMat hd.2.n area.n)
              (lookupD hd.1 b.output_connectomes []))
            b.output_connectomes := rfl
    refine ⟨IH.1, IH.2.1, ?_, ?_⟩
    · intro key hkey
      rw [List.foldl_cons, IH.2.2.1 key
        (fun hk => hkey (List.mem_cons_of_mem _ hk)), hoc,
        lookup_insertKey_ne hd.1 key _ _
          (fun he => hkey (he ▸ List.mem_cons_self _ _))]
    · intro p hp
      rcases List.mem_cons.mp hp with he | ht
      · subst he
        rw [List.foldl_cons]
        simp only [lookupD]
        rw [IH.2.2.1 p.1 hnodup.1, hoc, lookup_insertKey_self,
          Option.getD_some, lookup_insertKey_self, Option.getD_some]
      · rw [List.foldl_cons, IH.2.2.2 p ht]

theorem lookupD_insertKey2_self (k1 k2 : String) (v : Mat)
    (d : List (String × List (String × Mat))) :
    lookupD k1 (insertKey2 k1 k2 v d) [] = insertKey k2 v (lookupD k1 d []) := by
  unfold insertKey2 lookupD
  rw [lookup_insertKey_self, Option.getD_some]

/-- The area loop of `conectomes_init_stimulus` does not touch the sparsity
or the output-area dict. -/
theorem initStim_area_loop_preserves (stimulus : Stimulus) (name : String)
    (u : Nat → ℚ) (l : List (String × Area))
    (st : Brain × List (String × Mat) × Nat) :
    ((l.foldl (initStim_area_step stimulus name u) st).1.p,
      (l.foldl (initStim_area_step stimulus name u) st).1.output_areas,
      (l.foldl (initStim_area_step stimulus name u) st).1.output_stimuli_connectomes)
      = (st.1.p, st.1.output_areas, st.1.output_stimuli_connectomes) :=
  foldl_preserves (initStim_area_step stimulus name u)
    (fun st => (st.1.p, st.1.output_areas, st.1.output_stimuli_connectomes))
    l (fun _ _ _ => rfl) st

/-- The output-area loop of `conectomes_init_stimulus`, at sparsity `p = 1`
and a legal uniform stream: every matrix it ever stores in its accumulating
dict is all-one with `stimulus.k` rows, and every iterated key ends up
present. -/
theorem initStim_out_loop_spec (stimulus : Stimulus) (name : String)
    (u : Nat → ℚ) (hu : validU u) :
    ∀ (l : List (String × Area)) (st : Brain × List (String × Mat) × Nat),
      st.1.p = 1 →
      (∀ q m, lookup q st.2.1 = some m → allOnes m ∧ m.length = stimulus.k) →
      (l.foldl (initStim_out_step stimulus name u) st).1.p = 1 ∧
      (∀ q m,
        lookup q (l.foldl (initStim_out_step stimulus name u) st).2.1
          = some m → allOnes m ∧ m.length = stimulus.k) ∧
      (∀ q, (lookup q st.2.1).isSome →
        (lookup q
          (l.foldl (initStim_out_step stimulus name u) st).2.1).isSome) ∧
      (∀ p ∈ l,
        (lookup p.1
          (l.foldl (initStim_out_step stimulus name u) st).2.1).isSome) := by
  intro l
  induction l with
  | nil =>
    intro st hp hinv
    exact ⟨hp, hinv, fun q h => h, fun p hp => absurd hp (List.not_mem_nil p)⟩
  | cons hd t ih =>
    intro st hp hinv
    have hacc : (initStim_out_step stimulus name u st hd).2.1
        = insertKey hd.1
            (binomialMat u st.2.2 st.1.p stimulus.k hd.2.n).1 st.2.1 := rfl
    have hstp : (initStim_out_step stimulus name u st hd).1.p = st.1.p := rfl
    have hinv2 : ∀ q m,
        lookup q (initStim_out_step stimulus name u st hd).2.1 = some m →
          allOnes m ∧ m.length = stimulus.k := by
      intro q m hm
      rw [hacc] at hm
      by_cases hq : q = hd.1
      · subst hq
        rw [lookup_insertKey_self, Option.some.injEq] at hm
        subst hm
        rw [hp]
        exact ⟨binomialMat_allOnes u _ _ _ hu, binomialMat_length ..⟩
      · rw [lookup_insertKey_ne hd.1 q _ _ hq] at hm
        exact hinv q m hm
    have IH := ih (initStim_out_step stimulus name u st hd)
      (hstp.trans hp) hinv2
    refine ⟨IH.1, IH.2.1, ?_, ?_⟩
    · intro q hq
      apply IH.2.2.1 q
      rw [hacc]
      exact lookup_insertKey_isSome q hd.1 _ _ hq
    · intro p hpm
      rcases List.mem_cons.mp hpm with he | ht
      · subst he
        apply IH.2.2.1 p.1
        rw [hacc, lookup_insertKey_self]
        rfl
      · exact IH.2.2.2 p ht

/-- The stimulus loop of `conectomes_init_area` does not touch the sparsity
or the output-side state. -/
theorem initArea_stim_loop_preserves (area : Area) (beta : ℚ) (u : Nat → ℚ)
    (l : List (String × List (String × Mat))) (st : Brain × Nat) :
    ((l.foldl (initArea_stim_step area beta u) st).1.p,
      (l.foldl (initArea_stim_step area beta u) st).1.output_areas,
      (l.foldl (initArea_stim_step area beta u) st).1.output_connectomes)
      = (st.1.p, st.1.output_areas, st.1.output_connectomes) :=
  foldl_preserves (initArea_stim_step area beta u)
    (fun st => (st.1.p, st.1.output_areas, st.1.output_connectomes))
    l (fun _ _ _ => rfl) st

/-- The area loop of `conectomes_init_area` does not touch the sparsity or
the output-side state. -/
theorem initArea_area_loop_preserves (area : Area) (beta : ℚ) (u : Nat → ℚ)
    (l : List (String × Area)) (st : Brain × List (String × Mat) × Nat) :
    ((l.foldl (initArea_area_step area beta u) st).1.p,
      (l.foldl (initArea_area_step area beta u) st).1.output_areas,
      (l.foldl (initArea_area_step area beta u) st).1.output_connectomes)
      = (st.1.p, st.1.output_areas, st.1.output_connectomes) := by
  refine foldl_preserves (initArea_area_step area beta u)
    (fun st => (st.1.p, st.1.output_areas, st.1.output_connectomes))
    l ?_ st
  intro st p _
  unfold initArea_area_step
  dsimp only
  split <;> rfl

/-- The output-area loop of `conectomes_init_area`, at sparsity `p = 0` and
a legal uniform stream: every matrix it ever stores under the new area's key
of `output_connectomes` is all-zero with `area.n` rows, and every iterated
output area ends up present there. -/
theorem initArea_out_loop_spec (area : Area) (u : Nat → ℚ) (hu : validU u) :
    ∀ (l : List (String × Area)) (st : Brain × Nat),
      st.1.p = 0 →
      (∀ q m,
        lookup q (lookupD area.name st.1.output_connectomes []) = some m →
          allZeros m ∧ m.length = area.n) →
      (l.foldl (initArea_out_step area u) st).1.p = 0 ∧
      (∀ q m,
        lookup q (lookupD area.name
            (l.foldl (initArea_out_step area u) st).1.output_connectomes [])
          = some m → allZeros m ∧ m.length = area.n) ∧
      (∀ q,
        (lookup q (lookupD area.name st.1.output_connectomes [])).isSome →
        (lookup q (lookupD area.name
          (l.foldl (initArea_out_step area u) st).1.output_connectomes
            [])).isSome) ∧
      (∀ p ∈ l,
        (lookup p.1 (lookupD area.name
          (l.foldl (initArea_out_step area u) st).1.output_connectomes
            [])).isSome) := by
  intro l
  induction l with
  | nil =>
    intro st hp hinv
    exact ⟨hp, hinv, fun q h => h, fun p hp => absurd hp (List.not_mem_nil p)⟩
  | cons hd t ih =>
    intro st hp hinv
    have hacc : lookupD area.name
        (initArea_out_step area u st hd).1.output_connectomes []
        = insertKey hd.1 (binomialMat u st.2 st.1.p area.n hd.2.n).1
            (lookupD area.name st.1.output_connectomes []) := by
      show lookupD area.name
        (insertKey2 area.name hd.1 _ st.1.output_connectomes) [] = _
      rw [lookupD_insertKey2_self]
    have hstp : (initArea_out_step area u st hd).1.p = st.1.p := rfl
    have hinv2 : ∀ q m,
        lookup q (lookupD area.name
            (initArea_out_step area u st hd).1.output_connectomes [])
          = some m → allZeros m ∧ m.length = area.n := by
      intro q m hm
      rw [hacc] at hm
      by_cases hq : q = hd.1
      · subst hq
        rw [lookup_insertKey_self, Option.some.injEq] at hm
        subst hm
        rw [hp]
        exact ⟨binomialMat_allZeros u _ _ _ hu, binomialMat_length ..⟩
      · rw [lookup_insertKey_ne hd.1 q _ _ hq] at hm
        exact hinv q m hm
    have IH := ih (initArea_out_step area u st hd) (hstp.trans hp) hinv2
    refine ⟨IH.1, IH.2.1, ?_, ?_⟩
    · intro q hq
      apply IH.2.2.1 q
      rw [hacc]
      exact lookup_insertKey_isSome q hd.1 _ _ hq
    · intro p hpm
      rcases List.mem_cons.mp hpm with he | ht
      · subst he
        apply IH.2.2.1 p.1
        rw [hacc, lookup_insertKey_self]
        rfl
      · exact IH.2.2.2 p ht

end CreationLemmas

/-- Counterexample to C4 as stated: with sparsity p = 1, creating stimulus
`s` (k = 1) after output area `o` (n = 2) allocates the stimulus→output
connectome as a Bernoulli(1) draw — the matrix `[[1, 1]]`, not the all-zero
matrix the claim requires for every creation order. -/
theorem C4_counterexample :
    (lookup "o" b4.output_areas).isSome = true ∧
    (lookup "s" b4.stimuli).isSome = true ∧
    lookupD "o" (lookupD "s" b4.output_stimuli_connectomes []) []
      = [[1, 1]] ∧
    ¬(lookupD "o" (lookupD "s" b4.output_stimuli_connectomes []) []
        = zerosMat 1 2) := by
  decide

/-- `conectomes_init_output_area` stores all-zero stimulus→output and
all-one area→output matrices for every already-existing population. -/
theorem conectomes_init_output_area_spec (b : Brain) (area : Area) (beta : ℚ)
    (hnsc : (b.stimuli_connectomes.map Prod.fst).Nodup)
    (hna : (b.areas.map Prod.fst).Nodup) :
    (∀ s ∈ b.stimuli_connectomes,
      lookupD area.name
        (lookupD s.1
          (b.conectomes_init_output_area area beta).stimuli_connectomes [])
        []
        = zerosMat (lookupD s.1 b.stimuli ⟨0⟩).k area.n) ∧
    (∀ a ∈ b.areas,
      lookupD area.name
        (lookupD a.1
          (b.conectomes_init_output_area area beta).output_connectomes [])
        []
        = onesMat a.2.n area.n) := by
  unfold Brain.conectomes_init_output_area
  dsimp only
  have hstim := initOut_stim_loop_spec area beta b.stimuli_connectomes b hnsc
  have harea := initOut_area_loop_spec area beta
    (b.stimuli_connectomes.foldl (initOut_stim_step area beta) b).areas
    (b.stimuli_connectomes.foldl (initOut_stim_step area beta) b)
    (by rw [hstim.2.1]; exact hna)
  constructor
  · intro s hs
    rw [harea.2.1, hstim.2.2.2.2 s hs]
  · intro a ha
    exact harea.2.2.2 a (by rw [hstim.2.1]; exact ha)

/-- With sparsity 1 and a legal uniform stream, `conectomes_init_stimulus`
stores an all-one stimulus→output matrix for every existing output area. -/
theorem conectomes_init_stimulus_ones (b : Brain) (stimulus : Stimulus)
    (s o : String) (u : Nat → ℚ) (c : Nat)
    (hp : b.p = 1) (hu : validU u) (ho : (lookup o b.output_areas).isSome) :
    ∃ m,
      lookup o
        (lookupD s
          ((b.conectomes_init_stimulus stimulus s u c).1).output_stimuli_connectomes
          [])
        = some m ∧ allOnes m ∧ m.length = stimulus.k := by
  unfold Brain.conectomes_init_stimulus
  dsimp only
  rw [lookupD, lookup_insertKey_self, Option.getD_some]
  have hpres := initStim_area_loop_preserves stimulus s u b.areas (b, [], c)
  have hp1 : (b.areas.foldl (initStim_area_step stimulus s u)
      (b, [], c)).1.p = 1 :=
    (congrArg Prod.fst hpres).trans hp
  have hoa1 : (b.areas.foldl (initStim_area_step stimulus s u)
      (b, [], c)).1.output_areas = b.output_areas :=
    congrArg (fun x => x.2.1) hpres
  have hloop := initStim_out_loop_spec stimulus s u hu
    (Brain.output_areas
      { (b.areas.foldl (initStim_area_step stimulus s u) (b, [], c)).1 with
        stimuli_connectomes :=
          insertKey s
            (b.areas.foldl (initStim_area_step stimulus s u) (b, [], c)).2.1
            (b.areas.foldl (initStim_area_step stimulus s u)
              (b, [], c)).1.stimuli_connectomes })
    ({ (b.areas.foldl (initStim_area_step stimulus s u) (b, [], c)).1 with
        stimuli_connectomes :=
          insertKey s
            (b.areas.foldl (initStim_area_step stimulus s u) (b, [], c)).2.1
            (b.areas.foldl (initStim_area_step stimulus s u)
              (b, [], c)).1.stimuli_connectomes },
      [], (b.areas.foldl (initStim_area_step stimulus s u) (b, [], c)).2.2)
    hp1 (fun q m hm => absurd hm (by simp [lookup]))
  obtain ⟨v, hv⟩ := Option.isSome_iff_exists.mp ho
  have hmem : (o, v) ∈ b.output_areas := lookup_eq_some_mem o _ v hv
  have hsome := hloop.2.2.2 (o, v) (by
    show (o, v) ∈ Brain.output_areas _
    dsimp only
    rw [hoa1]
    exact hmem)
  obtain ⟨m, hm⟩ := Option.isSome_iff_exists.mp hsome
  exact ⟨m, hm, hloop.2.1 o m hm⟩

/-- With sparsity 0 and a legal uniform stream, `conectomes_init_area`
stores an all-zero area→output matrix for every existing output area. -/
theorem conectomes_init_area_zeros (b : Brain) (area : Area) (beta : ℚ)
    (u : Nat → ℚ) (c : Nat) (o : String)
    (hp : b.p = 0) (hu : validU u)
    (ho : (lookup o b.output_areas).isSome)
    (hfresh : lookup area.name b.output_connectomes = none) :
    ∃ m,
      lookup o
        (lookupD area.name
          ((b.conectomes_init_area area beta u c).1).output_connectomes [])
        = some m ∧ allZeros m ∧ m.length = area.n := by
  unfold Brain.conectomes_init_area
  dsimp only
  have hpres1 := initArea_stim_loop_preserves area beta u
    b.stimuli_connectomes (b, c)
  generalize hS1 :
    b.stimuli_connectomes.foldl (initArea_stim_step area beta u) (b, c)
      = S1
  rw [hS1] at hpres1
  have hpres2 := initArea_area_loop_preserves area beta u S1.1.areas
    (S1.1, [], S1.2)
  generalize hS2 :
    S1.1.areas.foldl (initArea_area_step area beta u) (S1.1, [], S1.2) = S2
  rw [hS2] at hpres2
  set B2 : Brain := { S2.1 with connectomes := insertKey area.name S2.2.1 S2.1.connectomes } with hB2
  have hp2 : B2.p = 0 := by
    rw [hB2]
    exact (congrArg Prod.fst hpres2).trans
      ((congrArg Prod.fst hpres1).trans hp)
  have hoa2 : B2.output_areas = b.output_areas := by
    rw [hB2]
    exact (congrArg (fun x => x.2.1) hpres2).trans
      (congrArg (fun x => x.2.1) hpres1)
  have hoc2 : B2.output_connectomes = b.output_connectomes := by
    rw [hB2]
    exact (congrArg (fun x => x.2.2) hpres2).trans
      (congrArg (fun x => x.2.2) hpres1)
  have hloop := initArea_out_loop_spec area u hu B2.output_areas
    (B2, S2.2.2) hp2
    (fun q m hm => by
      rw [show lookupD area.name B2.output_connectomes []
          = ([] : List (String × Mat)) from by
        rw [lookupD, hoc2, hfresh]
        rfl] at hm
      exact absurd hm (by simp [lookup]))
  obtain ⟨v, hv⟩ := Option.isSome_iff_exists.mp ho
  have hmem : (o, v) ∈ b.output_areas := lookup_eq_some_mem o _ v hv
  have hsome := hloop.2.2.2 (o, v) (by rw [hoa2]; exact hmem)
  obtain ⟨m, hm⟩ := Option.isSome_iff_exists.mp hsome
  exact ⟨m, hm, hloop.2.1 o m hm⟩

/-- C4 amended: the all-zero stimulus→output and all-one area→output
initialization holds exactly for the connectomes allocated by
`add_output_area`, i.e. when the output area is created after the stimulus
or area.  A connectome allocated the other way round is drawn Bernoulli(p)
like a regular pair: a stimulus created after an output area (with p = 1 and
a legal uniform stream) gets an all-one stimulus→output matrix, and an area
created after an output area (with p = 0) gets an all-zero area→output
matrix. -/
theorem C4_output_connectome_init :
    (∀ (b : Brain) (name : String) (n k : Nat) (beta : ℚ) (b' : Brain),
      b.add_output_area name n k beta = some b' →
      (b.stimuli_connectomes.map Prod.fst).Nodup →
      (b.areas.map Prod.fst).Nodup →
      (∀ s ∈ b.stimuli_connectomes,
        lookupD name (lookupD s.1 b'.stimuli_connectomes []) []
          = zerosMat (lookupD s.1 b.stimuli ⟨0⟩).k n) ∧
      (∀ a ∈ b.areas,
        lookupD name (lookupD a.1 b'.output_connectomes []) []
          = onesMat a.2.n n)) ∧
    (∀ (b : Brain) (s o : String) (k : Nat) (u : Nat → ℚ) (c : Nat),
      b.p = 1 → validU u → (lookup o b.output_areas).isSome →
      ∃ m,
        lookup o
          (lookupD s
            ((b.add_stimulus s k u c).1).output_stimuli_connectomes [])
          = some m ∧ allOnes m ∧ m.length = k) ∧
    (∀ (b : Brain) (name o : String) (n k : Nat) (beta : ℚ) (u : Nat → ℚ)
        (c : Nat) (br : Brain × Nat),
      b.add_area name n k beta u c = some br →
      b.p = 0 → validU u → (lookup o b.output_areas).isSome →
      lookup name b.output_connectomes = none →
      ∃ m,
        lookup o (lookupD name br.1.output_connectomes [])
          = some m ∧ allZeros m ∧ m.length = n) := by
  refine ⟨?_, ?_, ?_⟩
  · intro b name n k beta b' hadd hnsc hna
    unfold Brain.add_output_area at hadd
    by_cases hc : (lookup name b.areas).isSome
    · rw [if_pos hc] at hadd
      exact absurd hadd (by simp)
    · rw [if_neg hc] at hadd
      have hb' := Option.some.inj hadd
      subst hb'
      exact conectomes_init_output_area_spec
        { b with output_areas :=
            insertKey name (mkOutputArea name n k) b.output_areas }
        (mkOutputArea name n k) beta hnsc hna
  · intro b s o k u c hp hu ho
    exact conectomes_init_stimulus_ones _ ⟨k⟩ s o u c hp hu ho
  · intro b name o n k beta u c br hadd hp hu ho hfresh
    unfold Brain.add_area at hadd
    by_cases hc : (lookup name b.output_areas).isSome
    · rw [if_pos hc] at hadd
      exact absurd hadd (by simp)
    · rw [if_neg hc] at hadd
      have hbr := Option.some.inj hadd
      subst hbr
      exact conectomes_init_area_zeros _ (mkArea name n k beta) beta u c o
        hp hu ho hfresh

/-- The constant-zero stream is a legal uniform stream. -/
theorem validU_uzero : validU uzero :=
  fun _ => ⟨le_refl 0, show (0 : ℚ) < 1 by decide⟩

/-- Witness for the amended C4, covering all three creation orders at
concrete Brains. -/
theorem C4_witness :
    (bc4.add_output_area "o" 2 1 0 = some bc4') ∧
    (bc4.stimuli_connectomes.map Prod.fst).Nodup ∧
    (bc4.areas.map Prod.fst).Nodup ∧
    ((∀ s ∈ bc4.stimuli_connectomes,
        lookupD "o" (lookupD s.1 bc4'.stimuli_connectomes []) []
          = zerosMat (lookupD s.1 bc4.stimuli ⟨0⟩).k 2) ∧
      (∀ a ∈ bc4.areas,
        lookupD "o" (lookupD a.1 bc4'.output_connectomes []) []
          = onesMat a.2.n 2)) ∧
    (b4a.p = 1 ∧ (lookup "o" b4a.output_areas).isSome = true ∧
      ∃ m,
        lookup "o"
          (lookupD "s"
            ((b4a.add_stimulus "s" 1 uzero 0).1).output_stimuli_connectomes
            [])
          = some m ∧ allOnes m ∧ m.length = 1) ∧
    (bc0.add_area "A" 3 1 (1/10) uzero 0
        = some ((bc0.add_area "A" 3 1 (1/10) uzero 0).getD (bc0, 0)) ∧
      bc0.p = 0 ∧ (lookup "o" bc0.output_areas).isSome = true ∧
      lookup "A" bc0.output_connectomes = none ∧
      ∃ m,
        lookup "o"
          (lookupD "A"
            (((bc0.add_area "A" 3 1 (1/10) uzero 0).getD
              (bc0, 0)).1).output_connectomes [])
          = some m ∧ allZeros m ∧ m.length = 3) :=
  ⟨by decide, by decide, by decide,
    C4_output_connectome_init.1 bc4 "o" 2 1 0 bc4' (by decide) (by decide)
      (by decide),
    ⟨by decide, by decide,
      C4_output_connectome_init.2.1 b4a "s" "o" 1 uzero 0 (by decide)
        validU_uzero (by decide)⟩,
    ⟨by decide, by decide, by decide, by decide,
      C4_output_connectome_init.2.2 bc0 "A" "o" 3 1 (1/10) uzero 0
        ((bc0.add_area "A" 3 1 (1/10) uzero 0).getD (bc0, 0)) (by decide)
        (by decide) validU_uzero (by decide) (by decide)⟩⟩

/-- Counterexample to C9 as stated: `b9` already holds an output area named
`o`, yet a second `add_output_area "o"` succeeds — the code checks the new
name only against regular areas, so reusing an output-area name does not
fail. -/
theorem C9_counterexample :
    (lookup "o" b9.output_areas).isSome = true ∧
    (b9.add_output_area "o" 2 1 0).isSome = true := by
  decide

/-- C9 amended: `add_area` fails exactly when the name is an existing output
area's, and `add_output_area` fails exactly when the name is an existing
regular area's; these are the only naming checks — `add_output_area` does
not reject an existing output-area name, `add_area` does not reject an
existing area or stimulus name, and `add_stimulus` checks nothing.  A
failing call returns before any state is built, leaving the Brain
unchanged. -/
theorem C9_naming_checks (b : Brain) (name : String) (n k : Nat) (beta : ℚ)
    (u : Nat → ℚ) (c : Nat) :
    (b.add_area name n k beta u c = none
      ↔ (lookup name b.output_areas).isSome = true) ∧
    (b.add_output_area name n k beta = none
      ↔ (lookup name b.areas).isSome = true) := by
  constructor
  · unfold Brain.add_area
    by_cases hc : (lookup name b.output_areas).isSome
    · simp [hc]
    · simp [hc]
  · unfold Brain.add_output_area
    by_cases hc : (lookup name b.areas).isSome
    · simp [hc]
    · simp [hc]

end Assemblies
